import Mathlib

/-!
Verification of the polaris physical-memory-manager core.

This file gives a shallow embedding, in Lean 4, of the memory-management
subsystem of the polaris kernel (crates `pmm` and `kernel`), and proves
properties of that embedding.  The embedding follows the Rust sources:

* `crates/pmm/src/frame.rs`               — frame metadata
* `crates/pmm/src/memmap.rs`              — sparse memory map
* `crates/pmm/src/physical_memory_manager.rs` — buddy allocator
* `crates/pmm/src/block_allocator.rs`     — boot-time block allocator
* `crates/pmm/src/page_directory.rs`      — page-table walks
* `crates/pmm/src/arch/software/*`        — the software ("scale model") arch
* `crates/kernel/src/mem.rs`              — seeding and the allocator facade

Machine integers (`usize`, `u8`, `u64`) are modelled as `Nat`; overflow is
made explicit (`% 2 ^ 64`) at the few places the Rust code relies on
wrapping arithmetic.  Intrusive free lists (pointers threaded through free
frames) are modelled as Lean lists of block base addresses, with push,
pop and remove matching the sequential behaviour of the CAS loops in the
source.  Fallible operations return `Except`.
-/

namespace Polaris

/-! ## Architecture constants (x86_64 target, `arch/x86_64/mod.rs`) -/

/-- Page size in bytes (4 KiB) — `arch::PAGE_SIZE` on the x86_64 target,
also hard-coded as 4096 in `kernel/src/mem.rs`. -/
def PAGE_SIZE : Nat := 4096

/-! ## Frame metadata (`frame.rs`) -/

/-- Sentinel order value: frame never managed by the buddy allocator. -/
def ORDER_NOT_BUDDY : Nat := 255

/-- Per-frame metadata (`struct Frame`): the `Allocated` and `Reserved`
flag bits of `FrameFlags`, and the order byte. -/
structure Frame where
  allocated : Bool
  reserved : Bool
  order : Nat
deriving DecidableEq, Repr

/-- `Frame::default()`: flags clear, order byte `ORDER_NOT_BUDDY`. -/
def Frame.default : Frame := { allocated := false, reserved := false, order := ORDER_NOT_BUDDY }

/-! ## Sparse memory map (`memmap.rs`) -/

/-- Frames per section (`FRAMES_PER_SECTION = 32_768`). -/
def FRAMES_PER_SECTION : Nat := 32768

/-- One entry of a boot-time memory map: the data exposed by the
`BootMemoryRegion` trait (`base()`, `size()`, `is_usable()`). -/
structure BootMemoryRegion where
  base : Nat
  size : Nat
  usable : Bool
deriving DecidableEq, Repr

/-- Replace the element at index `i` by `f` applied to it (identity out of
range); models mutation through a `&mut` obtained by indexing a slice. -/
def listModify (f : α → α) : Nat → List α → List α
  | _, [] => []
  | 0, a :: as => f a :: as
  | n + 1, a :: as => a :: listModify f n as

/-- A section of the memory map (`struct Section`): the starting frame
number of the allocated slice, and the slice itself (or `None`). -/
structure Section where
  start_frame : Nat
  frames : Option (List Frame)
deriving DecidableEq, Repr

/-- `Section::empty()`. -/
def Section.empty : Section := { start_frame := 0, frames := none }

/-- `Section::frame`: look up frame `n` in the slice, if covered. -/
def Section.frame (s : Section) (n : Nat) : Option Frame :=
  match s.frames with
  | none => none
  | some fs =>
    if s.start_frame ≤ n ∧ n < s.start_frame + fs.length then fs.get? (n - s.start_frame)
    else none

/-- `Section::frame_mut` followed by a mutation `f` of the frame. -/
def Section.modify_frame (s : Section) (n : Nat) (f : Frame → Frame) : Section :=
  match s.frames with
  | none => s
  | some fs =>
    if s.start_frame ≤ n ∧ n < s.start_frame + fs.length then
      { s with frames := some (listModify f (n - s.start_frame) fs) }
    else s

/-- The whole memory map (`struct MemoryMap`). -/
structure MemoryMap where
  sections : List Section
deriving DecidableEq, Repr

/-- `MemoryMap::frame`. -/
def MemoryMap.frame (m : MemoryMap) (n : Nat) : Option Frame :=
  match m.sections.get? (n / FRAMES_PER_SECTION) with
  | none => none
  | some s => s.frame n

/-- `MemoryMap::frame_mut` followed by a mutation `f` of the frame. -/
def MemoryMap.modify_frame (m : MemoryMap) (n : Nat) (f : Frame → Frame) : MemoryMap :=
  { sections := listModify (fun s => s.modify_frame n f) (n / FRAMES_PER_SECTION) m.sections }

/-- `MemoryMap::allocated_frame_count`. -/
def MemoryMap.allocated_frame_count (m : MemoryMap) : Nat :=
  (m.sections.map (fun s => match s.frames with | none => 0 | some fs => fs.length)).sum

/-- `MemoryMap::section_count_for_address`. -/
def MemoryMap.section_count_for_address (max_address : Nat) : Nat :=
  max_address / PAGE_SIZE / FRAMES_PER_SECTION + 1

/-- `MemoryMap::is_frame_usable`: scan all regions; the last region
containing the address decides usability. -/
def is_frame_usable (addr : Nat) (bm : List BootMemoryRegion) : Bool :=
  bm.foldl (fun u r => if r.base ≤ addr ∧ addr < r.base + r.size then r.usable else u) false

/-- One step of the bound-gathering loop in `MemoryMap::build_section`:
fold a region into the `(min_usable_frame, max_usable_frame)` accumulator. -/
def build_section_step (section_start_frame section_end_frame : Nat)
    (acc : Option Nat × Option Nat) (r : BootMemoryRegion) : Option Nat × Option Nat :=
  if !r.usable then acc
  else
    let region_start_frame := r.base / PAGE_SIZE
    let region_end_frame := (r.base + r.size) / PAGE_SIZE
    if region_end_frame ≤ section_start_frame ∨ region_start_frame ≥ section_end_frame then acc
    else
      let s := max region_start_frame section_start_frame
      let e := min region_end_frame section_end_frame
      (some (match acc.1 with | none => s | some m => min m s),
       some (match acc.2 with | none => e | some m => max m e))

/-- `MemoryMap::build_section`. -/
def build_section (section_idx : Nat) (bm : List BootMemoryRegion) : Section :=
  let section_start_frame := section_idx * FRAMES_PER_SECTION
  let section_end_frame := section_start_frame + FRAMES_PER_SECTION
  match bm.foldl (build_section_step section_start_frame section_end_frame) (none, none) with
  | (some min_frame, some max_frame) =>
    { start_frame := min_frame,
      frames := some ((List.range (max_frame - min_frame)).map (fun i =>
        if is_frame_usable ((min_frame + i) * PAGE_SIZE) bm then Frame.default
        else { Frame.default with reserved := true })) }
  | _ => Section.empty

/-- `MemoryMap::from_boot_map`. -/
def MemoryMap.from_boot_map (bm : List BootMemoryRegion) : MemoryMap :=
  if bm.isEmpty then { sections := [] }
  else
    let max_address := bm.foldl (fun m r => max m (r.base + r.size)) 0
    { sections := (List.range (MemoryMap.section_count_for_address max_address)).map
        (fun idx => build_section idx bm) }

/-! ## Buddy allocator (`physical_memory_manager.rs`)

A `FreeList` is an intrusive LIFO stack threaded through the free frames;
sequentially, `push` prepends the block address, `pop` takes the head and
`remove_from_free_list` deletes the first occurrence.  We model the twelve
lists as a function from order to the list of block base addresses on that
order's list (only orders `0..=MAX_ORDER` are ever indexed). -/

/-- Maximum order supported by the buddy allocator (`MAX_ORDER`). -/
def MAX_ORDER : Nat := 11

/-- Errors of the buddy allocator (`enum AllocError` in
`physical_memory_manager.rs`). -/
inductive AllocError where
  | outOfMemory
  | orderTooLarge
  | invalidAlignment
  | invalidDeallocation
deriving DecidableEq, Repr

instance {ε α : Type} [DecidableEq ε] [DecidableEq α] : DecidableEq (Except ε α) := fun a b =>
  match a, b with
  | .ok x, .ok y => decidable_of_iff (x = y) (by simp)
  | .error x, .error y => decidable_of_iff (x = y) (by simp)
  | .ok _, .error _ => isFalse (by simp)
  | .error _, .ok _ => isFalse (by simp)

/-- State of `PhysicalMemoryManager`: the owned memory map plus the free
lists (one list of block addresses per order). -/
structure PhysicalMemoryManager where
  memory_map : MemoryMap
  free_lists : Nat → List Nat

/-- `PhysicalMemoryManager::new`: empty free lists. -/
def PhysicalMemoryManager.new (m : MemoryMap) : PhysicalMemoryManager :=
  { memory_map := m, free_lists := fun _ => [] }

/-- Overwrite one free list, leaving the others untouched. -/
def setList (fl : Nat → List Nat) (k : Nat) (v : List Nat) : Nat → List Nat :=
  fun i => if i = k then v else fl i

/-- Delete the first occurrence of `a` (no change if absent); the
sequential behaviour of the list walk in `remove_from_free_list`. -/
def removeFirst (a : Nat) : List Nat → List Nat
  | [] => []
  | x :: xs => if x = a then xs else x :: removeFirst a xs

namespace PhysicalMemoryManager

/-- `PhysicalMemoryManager::buddy_address`. -/
def buddy_address (addr order : Nat) : Nat := addr ^^^ (2 ^ order * PAGE_SIZE)

/-- `PhysicalMemoryManager::is_buddy_free`: the buddy's leading frame must
be covered, not `Allocated`, not `Reserved`, and carry order byte `order`
(which must be at most `MAX_ORDER`). -/
def is_buddy_free (m : MemoryMap) (buddy_addr order : Nat) : Bool :=
  match m.frame (buddy_addr / PAGE_SIZE) with
  | some fr => !fr.allocated && !fr.reserved && (fr.order == order) && fr.order ≤ MAX_ORDER
  | none => false

/-- `PhysicalMemoryManager::add_to_free_list`: record the order in the
leading frame, then push the block. -/
def add_to_free_list (st : PhysicalMemoryManager) (addr order : Nat) : PhysicalMemoryManager :=
  { memory_map := st.memory_map.modify_frame (addr / PAGE_SIZE) (fun fr => { fr with order := order }),
    free_lists := setList st.free_lists order (addr :: st.free_lists order) }

/-- `PhysicalMemoryManager::remove_from_free_list`. -/
def remove_from_free_list (st : PhysicalMemoryManager) (addr order : Nat) :
    PhysicalMemoryManager :=
  { st with free_lists := setList st.free_lists order (removeFirst addr (st.free_lists order)) }

/-- `PhysicalMemoryManager::find_free_order`: the first order in
`min_order..=MAX_ORDER` whose free list is non-empty (`OutOfMemory`,
i.e. `none`, when they are all empty). -/
def find_free_order_from (fl : Nat → List Nat) (min_order : Nat) : Option Nat :=
  (List.range' min_order (MAX_ORDER + 1 - min_order)).find? (fun o => !(fl o).isEmpty)

/-- `PhysicalMemoryManager::split_block`: for `order` in
`(to_order..from_order).rev()`, push the upper buddy at
`addr + 2^order * PAGE_SIZE` onto free list `order`. -/
def split_block (st : PhysicalMemoryManager) (addr from_order to_order : Nat) :
    PhysicalMemoryManager :=
  ((List.range' to_order (from_order - to_order)).reverse).foldl
    (fun s o => s.add_to_free_list (addr + 2 ^ o * PAGE_SIZE) o) st

/-- `PhysicalMemoryManager::allocate`. -/
def allocate (st : PhysicalMemoryManager) (order : Nat) :
    Except AllocError Nat × PhysicalMemoryManager :=
  if order > MAX_ORDER then (.error .orderTooLarge, st)
  else
    match find_free_order_from st.free_lists order with
    | none => (.error .outOfMemory, st)
    | some alloc_order =>
      match st.free_lists alloc_order with
      | [] => (.error .outOfMemory, st)
      | addr :: rest =>
        let st1 : PhysicalMemoryManager :=
          { st with free_lists := setList st.free_lists alloc_order rest }
        let st2 := split_block st1 addr alloc_order order
        let mm := st2.memory_map.modify_frame (addr / PAGE_SIZE)
          (fun fr => { fr with allocated := true, order := order })
        (.ok addr, { st2 with memory_map := mm })

/-- The coalescing loop of `PhysicalMemoryManager::deallocate` (the
`while current_order < MAX_ORDER` loop followed by the final push),
structurally recursive on the remaining iteration count
`MAX_ORDER - order` (zero exactly when the `while` guard fails). -/
def coalesce_fuel (st : PhysicalMemoryManager) (addr order : Nat) :
    Nat → PhysicalMemoryManager
  | 0 => st.add_to_free_list addr order
  | fuel + 1 =>
    let b := buddy_address addr order
    if is_buddy_free st.memory_map b order then
      coalesce_fuel (st.remove_from_free_list b order) (min addr b) (order + 1) fuel
    else st.add_to_free_list addr order

/-- The coalescing loop of `deallocate`, entered at `order`. -/
def coalesce (st : PhysicalMemoryManager) (addr order : Nat) : PhysicalMemoryManager :=
  coalesce_fuel st addr order (MAX_ORDER - order)

/-- `PhysicalMemoryManager::deallocate`. -/
def deallocate (st : PhysicalMemoryManager) (base order : Nat) : PhysicalMemoryManager :=
  if order > MAX_ORDER then st
  else
    let mm := st.memory_map.modify_frame (base / PAGE_SIZE)
      (fun fr => { fr with allocated := false, order := order })
    coalesce { st with memory_map := mm } base order

/-- The splitting loop of `PhysicalMemoryManager::allocate_aligned`: for
`split_order` in `order..align_order`, deallocate the upper buddy at
`addr + 2^split_order * PAGE_SIZE`. -/
def release_upper (st : PhysicalMemoryManager) (addr order align_order : Nat) :
    PhysicalMemoryManager :=
  (List.range' order (align_order - order)).foldl
    (fun s so => s.deallocate (addr + 2 ^ so * PAGE_SIZE) so) st

/-- `PhysicalMemoryManager::allocate_aligned`. -/
def allocate_aligned (st : PhysicalMemoryManager) (order align_order : Nat) :
    Except AllocError Nat × PhysicalMemoryManager :=
  if order > MAX_ORDER then (.error .orderTooLarge, st)
  else if align_order < order then (.error .invalidAlignment, st)
  else
    match st.allocate align_order with
    | (.error e, st1) => (.error e, st1)
    | (.ok addr, st1) =>
      if align_order > order then
        let st2 := release_upper st1 addr order align_order
        let mm := st2.memory_map.modify_frame (addr / PAGE_SIZE)
          (fun fr => { fr with order := order })
        (.ok addr, { st2 with memory_map := mm })
      else (.ok addr, st1)

end PhysicalMemoryManager

/-! ## PMM seeding (`init_pmm` in `kernel/src/mem.rs`) -/

/-- Draining loop of `init_pmm` at a fixed order, structurally recursive
on a fuel bound on the remaining iterations: deallocate blocks of
`2^order * PAGE_SIZE` bytes while they fit below `endp`. -/
def drain_order_fuel (st : PhysicalMemoryManager) (addr endp order : Nat) :
    Nat → PhysicalMemoryManager × Nat
  | 0 => (st, addr)
  | fuel + 1 =>
    if addr + 2 ^ order * PAGE_SIZE ≤ endp then
      drain_order_fuel (st.deallocate addr order) (addr + 2 ^ order * PAGE_SIZE) endp order fuel
    else (st, addr)

/-- One `while addr + block_size <= end` loop of `init_pmm` (the fuel
`endp + 1 - addr` dominates the iteration count since blocks are at least
one byte). -/
def drain_order (st : PhysicalMemoryManager) (addr endp order : Nat) :
    PhysicalMemoryManager × Nat :=
  drain_order_fuel st addr endp order (endp + 1 - addr)

/-- The `for order in (0..MAX_ORDER).rev()` loop of `init_pmm`: drain
orders `o - 1, o - 2, …, 0`. -/
def drain_down (st : PhysicalMemoryManager) (addr endp : Nat) : Nat → PhysicalMemoryManager
  | 0 => st
  | o + 1 =>
    let p := drain_order st addr endp o
    drain_down p.1 p.2 endp o

/-- The base alignment performed by `init_pmm` before seeding a region:
round up to the next `PAGE_SIZE` boundary when the base is not
page-aligned.  (`(addr + PAGE_SIZE - 1) & !(PAGE_SIZE - 1)` is written as
round-up division, its value for a power-of-two page size.) -/
def page_align_up (base : Nat) : Nat :=
  if base % PAGE_SIZE ≠ 0 then (base + PAGE_SIZE - 1) / PAGE_SIZE * PAGE_SIZE else base

/-- Seeding of one usable boot region in `init_pmm`: align the base up to
`PAGE_SIZE`, drain order-`MAX_ORDER` blocks, then drain the remainder at
orders `10, 9, …, 0`. -/
def seed_region (st : PhysicalMemoryManager) (base size : Nat) : PhysicalMemoryManager :=
  let endp := base + size
  let addr := page_align_up base
  let p := drain_order st addr endp MAX_ORDER
  drain_down p.1 p.2 endp MAX_ORDER

/-- `init_pmm`: build the memory map from the boot map, then seed every
usable region. -/
def init_pmm (bm : List BootMemoryRegion) : PhysicalMemoryManager :=
  bm.foldl (fun st r => if r.usable then seed_region st r.base r.size else st)
    (PhysicalMemoryManager.new (MemoryMap.from_boot_map bm))

/-! ## Kernel allocator facade (`kernel/src/mem.rs`, `GlobalAlloc` impl)

In PMM mode the facade computes
`size = layout.size().max(layout.align())`,
`pages = (size + 4095) / 4096`,
`order = pages.next_power_of_two().trailing_zeros()`,
identically in `alloc` and in `dealloc`. -/

/-- `usize::next_power_of_two`: the smallest power of two that is at
least `n` (and `1` for `n ≤ 1`). -/
def next_power_of_two (n : Nat) : Nat := 2 ^ Nat.clog 2 n

/-- Helper for `trailing_zeros`, structurally recursive on a fuel bound
of 64 bits: count the low zero bits. -/
def trailing_zeros_aux : Nat → Nat → Nat
  | 0, _ => 0
  | fuel + 1, n => if n % 2 = 0 then trailing_zeros_aux fuel (n / 2) + 1 else 0

/-- `u64::trailing_zeros` (64 for the input 0). -/
def trailing_zeros (n : Nat) : Nat := if n = 0 then 64 else trailing_zeros_aux 64 n

/-- Order computation of `KernelAllocator::alloc` in
`InnerAllocator::PhysicalMemoryManager` mode. -/
def kernel_alloc_order (size align : Nat) : Nat :=
  let sz := max size align
  let pages := (sz + 4095) / 4096
  trailing_zeros (next_power_of_two pages)

/-- Order computation of `KernelAllocator::dealloc` in
`InnerAllocator::PhysicalMemoryManager` mode (the same expression,
duplicated in the source). -/
def kernel_dealloc_order (size align : Nat) : Nat :=
  let sz := max size align
  let pages := (sz + 4095) / 4096
  trailing_zeros (next_power_of_two pages)

/-! ## Block allocator (`block_allocator.rs`)

The two fixed-capacity arrays `[Option<MemoryRegion>; MAX_REGIONS]` with
their `count` fields are modelled as lists of length at most
`MAX_REGIONS` (the `count` prefix holds only `Some` entries, which the
iterators skip over `None` anyway).  The bit-mask page alignments
`x & !(PAGE_SIZE - 1)` and `(x + PAGE_SIZE - 1) & !(PAGE_SIZE - 1)` are
written as `x / PAGE_SIZE * PAGE_SIZE` and round-up division — their
values for a power-of-two page size. -/

/-- Capacity of a region array (`MAX_REGIONS`). -/
def MAX_REGIONS : Nat := 128

/-- Errors of the block allocator (`block_allocator::AllocError`). -/
inductive BlockAllocError where
  | outOfMemory
  | invalidAlignment
  | regionsFull
  | regionOverlap
deriving DecidableEq, Repr

/-- A contiguous physical span (`struct MemoryRegion`). -/
structure MemoryRegion where
  base : Nat
  size : Nat
deriving DecidableEq, Repr

/-- `MemoryRegion::end`: exclusive end address. -/
def MemoryRegion.end_addr (r : MemoryRegion) : Nat := r.base + r.size

/-- `MemoryRegion::overlaps`. -/
def MemoryRegion.overlaps (a b : MemoryRegion) : Prop :=
  a.base < b.end_addr ∧ b.base < a.end_addr

instance : DecidablePred (fun p : MemoryRegion × MemoryRegion => p.1.overlaps p.2) :=
  fun _ => instDecidableAnd

instance (a b : MemoryRegion) : Decidable (a.overlaps b) := instDecidableAnd

/-- `MemoryRegion::adjacent`. -/
def MemoryRegion.adjacent (a b : MemoryRegion) : Prop :=
  a.end_addr = b.base ∨ b.end_addr = a.base

instance (a b : MemoryRegion) : Decidable (a.adjacent b) := instDecidableOr

/-- `MemoryRegion::mergeable`. -/
def MemoryRegion.mergeable (a b : MemoryRegion) : Prop := a.overlaps b ∨ a.adjacent b

/-- `MemoryRegion::merge`: the span from the smaller base to the larger
end. -/
def MemoryRegion.merge (a b : MemoryRegion) : MemoryRegion :=
  let base := if a.base < b.base then a.base else b.base
  let e := if a.end_addr > b.end_addr then a.end_addr else b.end_addr
  { base := base, size := e - base }

/-- Insert an element at an index of a list (callers guard the index). -/
def listInsertIdx (a : α) : Nat → List α → List α
  | 0, l => a :: l
  | _ + 1, [] => [a]
  | n + 1, x :: xs => x :: listInsertIdx a n xs

/-- One of the two fixed-capacity sorted arrays (`struct RegionArray`). -/
structure RegionArray where
  regions : List MemoryRegion
deriving DecidableEq, Repr

/-- `RegionArray::insert`: fails with `RegionsFull` when the capacity is
exhausted or the index is out of range. -/
def RegionArray.insert (ra : RegionArray) (index : Nat) (r : MemoryRegion) :
    Except BlockAllocError RegionArray :=
  if ra.regions.length ≥ MAX_REGIONS then .error .regionsFull
  else if index > ra.regions.length then .error .regionsFull
  else .ok { regions := listInsertIdx r index ra.regions }

/-- `RegionArray::total_size`. -/
def RegionArray.total_size (ra : RegionArray) : Nat := (ra.regions.map MemoryRegion.size).sum

/-- The scanning loop of `RegionArray::add`: walk the regions from index
`i`, growing `merged` over every overlapping-or-adjacent entry,
remembering the first and last merged index, and stopping (with the
insertion index) at the first entry strictly past the merged region.
Returns `(merged, stop index if the loop broke, first merged index,
last merged index)`. -/
def add_loop (merged : MemoryRegion) (i : Nat) (mS mE : Option Nat) :
    List MemoryRegion → MemoryRegion × Option Nat × Option Nat × Option Nat
  | [] => (merged, none, mS, mE)
  | r :: rest =>
    if merged.base > r.end_addr then add_loop merged (i + 1) mS mE rest
    else if merged.end_addr < r.base then (merged, some i, mS, mE)
    else add_loop (merged.merge r) (i + 1) (some (mS.getD i)) (some i) rest

/-- `RegionArray::add`: merge a region into the array, keeping it sorted
and coalesced. -/
def RegionArray.add (ra : RegionArray) (region : MemoryRegion) :
    Except BlockAllocError RegionArray :=
  if region.size = 0 then .ok ra
  else
    match add_loop region 0 none none ra.regions with
    | (merged, _, some s, some e) =>
      RegionArray.insert { regions := ra.regions.take s ++ ra.regions.drop (e + 1) } s merged
    | (merged, stop, _, _) => RegionArray.insert ra (stop.getD ra.regions.length) merged

/-- The loop body of `RegionArray::subtract`, structurally recursive on a
fuel bound on the iteration count (each step either advances the index or
shrinks `length - index`). -/
def sub_loop (region : MemoryRegion) : Nat → List MemoryRegion → Nat →
    Except BlockAllocError (List MemoryRegion)
  | 0, rs, _ => .ok rs
  | fuel + 1, rs, i =>
    match rs.get? i with
    | none => .ok rs
    | some ex =>
      if ¬ ex.overlaps region then sub_loop region fuel rs (i + 1)
      else
        let rs1 := rs.eraseIdx i
        if ex.base < region.base then
          let before : MemoryRegion := { base := ex.base, size := region.base - ex.base }
          match RegionArray.insert ⟨rs1⟩ i before with
          | .error e => .error e
          | .ok ra2 =>
            if ex.end_addr > region.end_addr then
              let after : MemoryRegion :=
                { base := region.end_addr, size := ex.end_addr - region.end_addr }
              match RegionArray.insert ra2 (i + 1) after with
              | .error e => .error e
              | .ok ra3 => sub_loop region fuel ra3.regions (i + 2)
            else sub_loop region fuel ra2.regions (i + 1)
        else
          if ex.end_addr > region.end_addr then
            let after : MemoryRegion :=
              { base := region.end_addr, size := ex.end_addr - region.end_addr }
            match RegionArray.insert ⟨rs1⟩ i after with
            | .error e => .error e
            | .ok ra2 => sub_loop region fuel ra2.regions (i + 1)
          else sub_loop region fuel rs1 i

/-- `RegionArray::subtract`: remove a region, splitting entries as
necessary. -/
def RegionArray.subtract (ra : RegionArray) (region : MemoryRegion) :
    Except BlockAllocError RegionArray :=
  if region.size = 0 then .ok ra
  else
    match sub_loop region (ra.regions.length + 1) ra.regions 0 with
    | .error e => .error e
    | .ok rs => .ok { regions := rs }

/-- State of `BlockAllocator`: all reported memory, and the reserved or
allocated regions. -/
structure BlockAllocator where
  memory : RegionArray
  reserved : RegionArray
deriving DecidableEq, Repr

/-- `BlockAllocator::new`. -/
def BlockAllocator.new : BlockAllocator := { memory := ⟨[]⟩, reserved := ⟨[]⟩ }

/-- `BlockAllocator::add`: page-align the base up and the end down, then
merge into `memory[]`. -/
def BlockAllocator.add (st : BlockAllocator) (base size : Nat) :
    Except BlockAllocError BlockAllocator :=
  let aligned_base := (base + PAGE_SIZE - 1) / PAGE_SIZE * PAGE_SIZE
  let e := base + size
  if e ≤ aligned_base then .ok st
  else
    let aligned_size := (e - aligned_base) / PAGE_SIZE * PAGE_SIZE
    if aligned_size = 0 then .ok st
    else (st.memory.add { base := aligned_base, size := aligned_size }).map
      (fun m => { st with memory := m })

/-- `BlockAllocator::reserve`: page-align the base down and the end up,
then merge into `reserved[]`. -/
def BlockAllocator.reserve (st : BlockAllocator) (base size : Nat) :
    Except BlockAllocError BlockAllocator :=
  if size = 0 then .ok st
  else
    let aligned_base := base / PAGE_SIZE * PAGE_SIZE
    let aligned_end := (base + size + PAGE_SIZE - 1) / PAGE_SIZE * PAGE_SIZE
    (st.reserved.add { base := aligned_base, size := aligned_end - aligned_base }).map
      (fun r => { st with reserved := r })

/-- Round `c` up to a multiple of `align` (the value of
`(c + align - 1) & !(align - 1)` for a power-of-two `align`). -/
def align_up (c align : Nat) : Nat := (c + align - 1) / align * align

/-- The reserved-overlap check inside the allocation loop: the first
reserved region (in array order) overlapping the candidate. -/
def find_overlap (rsv : List MemoryRegion) (cand : MemoryRegion) : Option MemoryRegion :=
  rsv.find? (fun s => decide (cand.overlaps s))

/-- The cursor loop of `BlockAllocator::allocate_raw` within one memory
region ending at `endp`, structurally recursive on a fuel bound on the
iteration count (the cursor strictly increases each round). -/
def scan_region_fuel (rsv : List MemoryRegion) (asize align endp : Nat) :
    Nat → Nat → Option Nat
  | 0, _ => none
  | fuel + 1, current =>
    if current + asize ≤ endp then
      let ac := align_up current align
      if ac + asize > endp then none
      else
        match find_overlap rsv { base := ac, size := asize } with
        | some s => scan_region_fuel rsv asize align endp fuel s.end_addr
        | none => some ac
    else none

/-- The cursor loop of `allocate_raw` over one memory region. -/
def scan_region (rsv : List MemoryRegion) (asize align base endp : Nat) : Option Nat :=
  scan_region_fuel rsv asize align endp (endp + 1 - base) base

/-- The outer loop of `allocate_raw` over `memory[]` in array order. -/
def scan_memory (mems rsv : List MemoryRegion) (asize align : Nat) : Option Nat :=
  match mems with
  | [] => none
  | m :: rest =>
    match scan_region rsv asize align m.base m.end_addr with
    | some p => some p
    | none => scan_memory rest rsv asize align

/-- `VirtualAddress::direct_mapped` under the hardware translator:
`phys.wrapping_add(direct_map_offset)` on `usize`. -/
def direct_mapped (off phys : Nat) : Nat := (phys + off) % 2 ^ 64

/-- `BlockAllocator::allocate_raw` (with the direct-map offset `off` of
the process-wide hardware translator passed explicitly).  On a
`RegionsFull` failure of the final `reserved.add` the source leaves a
partially mutated `reserved[]` behind; the model returns the pre-call
state on that path, which the claims (success path only) never rely on. -/
def BlockAllocator.allocate_raw (off : Nat) (st : BlockAllocator) (size align : Nat) :
    Except BlockAllocError Nat × BlockAllocator :=
  if size = 0 then (.error .outOfMemory, st)
  else if align = 0 ∨ align &&& (align - 1) ≠ 0 then (.error .invalidAlignment, st)
  else
    let aligned_size := align_up size PAGE_SIZE
    match scan_memory st.memory.regions st.reserved.regions aligned_size align with
    | none => (.error .outOfMemory, st)
    | some p =>
      match st.reserved.add { base := p, size := aligned_size } with
      | .error e => (.error e, st)
      | .ok rsv => (.ok (direct_mapped off p), { st with reserved := rsv })

/-- `usize::wrapping_sub`. -/
def wrapping_sub64 (a b : Nat) : Nat := (a + 2 ^ 64 - b % 2 ^ 64) % 2 ^ 64

/-- `BlockAllocator::free`: translate the virtual address back, page-align
outward, and subtract from `reserved[]`. -/
def BlockAllocator.free (off : Nat) (st : BlockAllocator) (vbase size : Nat) :
    Except BlockAllocError BlockAllocator :=
  if size = 0 then .ok st
  else
    let phys_base := wrapping_sub64 vbase off
    let aligned_base := phys_base / PAGE_SIZE * PAGE_SIZE
    let aligned_end := (phys_base + size + PAGE_SIZE - 1) / PAGE_SIZE * PAGE_SIZE
    (st.reserved.subtract { base := aligned_base, size := aligned_end - aligned_base }).map
      (fun r => { st with reserved := r })

/-- `BlockAllocator::total_memory`. -/
def BlockAllocator.total_memory (st : BlockAllocator) : Nat := st.memory.total_size

/-- `BlockAllocator::reserved_memory`. -/
def BlockAllocator.reserved_memory (st : BlockAllocator) : Nat := st.reserved.total_size

/-- `BlockAllocator::available_memory` (`total.saturating_sub(reserved)`;
`Nat` subtraction is saturating). -/
def BlockAllocator.available_memory (st : BlockAllocator) : Nat :=
  st.total_memory - st.reserved_memory

/-! ## Page directory over the software architecture
(`page_directory.rs` instantiated with `arch/software/*`)

The software ("scale model") architecture has 16-byte pages, three page
table levels and 16 entries per table.  A `PageEntry` is a raw machine
word.  The page tables referenced by intermediate entries form a tree
(entries are only written when a fresh zeroed table is linked, or at the
leaf level), so an intermediate slot is modelled as the child table when
its entry is present and `none` otherwise; leaf tables hold the raw
entry words.  Table indices are always below 16 (`page_index` masks with
0xF), so entry maps are total functions on `Nat`. -/

namespace Soft

/-- `arch/software` page size (16 bytes). -/
def PAGE_SIZE : Nat := 16

/-- `arch/software` level count. -/
def PAGE_TABLE_LEVELS : Nat := 3

/-- `arch::page_index` for the software architecture: 4 bits per level
above the 4-bit page offset. -/
def page_index (address level : Nat) : Nat := (address >>> (4 + level * 4)) &&& 15

/-- `PageEntry::ADDRESS_MASK` (bits 4–19). -/
def ADDRESS_MASK : Nat := 0xFFFF0

/-- `PageEntry::FLAGS_MASK` (bits 0–3). -/
def FLAGS_MASK : Nat := 0xF

/-- `PageFlags::PRESENT` (bit 0). -/
def PRESENT : Nat := 1

/-- `PageEntry::canonicalize`: sign-extend bit 15 to bits 16–63. -/
def canonicalize (addr : Nat) : Nat :=
  let a := addr &&& 0xFFFF
  if a &&& 0x8000 ≠ 0 then a ||| 0xFFFFFFFFFFFF0000 else a

/-- `PageEntry::new`. -/
def entry_new (address flags : Nat) : Nat :=
  (canonicalize address &&& ADDRESS_MASK) ||| (flags &&& FLAGS_MASK)

/-- `PageEntry::is_present` (via `flags().is_present()`). -/
def entry_is_present (e : Nat) : Bool := (e &&& FLAGS_MASK) &&& PRESENT ≠ 0

/-- `PageEntry::address`: present entries only; extract and
de-canonicalizebits 4–19 down to a 16-bit physical address. -/
def entry_address (e : Nat) : Option Nat :=
  if entry_is_present e then some ((e &&& ADDRESS_MASK) &&& 0xFFFF) else none

/-- A level-0 (leaf) page table: 16 raw entries. -/
structure Table0 where
  entries : Nat → Nat

/-- A fresh zeroed leaf table (`PageTable::new`). -/
def Table0.new : Table0 := ⟨fun _ => 0⟩

/-- A level-1 page table: present entries carry their child table. -/
structure Table1 where
  entries : Nat → Option Table0

/-- A fresh zeroed level-1 table. -/
def Table1.new : Table1 := ⟨fun _ => none⟩

/-- `struct PageDirectory`: the root (level-2) table. -/
structure PageDirectory where
  root : Nat → Option Table1

/-- `PageDirectory::new`. -/
def PageDirectory.new : PageDirectory := ⟨fun _ => none⟩

/-- `PageDirectory::map` (the aligned case; the source asserts alignment
of both addresses): walk with `walk_or_create`, then store
`PageEntry::new(phys, flags | PRESENT)` at level 0. -/
def PageDirectory.map (pd : PageDirectory) (virt phys flags : Nat) : PageDirectory :=
  let i2 := page_index virt 2
  let i1 := page_index virt 1
  let i0 := page_index virt 0
  let t1 := (pd.root i2).getD Table1.new
  let t0 := (t1.entries i1).getD Table0.new
  let t0m : Table0 := ⟨fun j => if j = i0 then entry_new phys (flags ||| PRESENT) else t0.entries j⟩
  let t1m : Table1 := ⟨fun j => if j = i1 then some t0m else t1.entries j⟩
  ⟨fun j => if j = i2 then some t1m else pd.root j⟩

/-- `PageDirectory::unmap`: walk without creating tables; at level 0 read
the mapped address (absent if the entry is not present), clear the entry
and return the address. -/
def PageDirectory.unmap (pd : PageDirectory) (virt : Nat) : Option Nat × PageDirectory :=
  let i2 := page_index virt 2
  let i1 := page_index virt 1
  let i0 := page_index virt 0
  match pd.root i2 with
  | none => (none, pd)
  | some t1 =>
    match t1.entries i1 with
    | none => (none, pd)
    | some t0 =>
      match entry_address (t0.entries i0) with
      | none => (none, pd)
      | some phys =>
        let t0m : Table0 := ⟨fun j => if j = i0 then 0 else t0.entries j⟩
        let t1m : Table1 := ⟨fun j => if j = i1 then some t0m else t1.entries j⟩
        (some phys, ⟨fun j => if j = i2 then some t1m else pd.root j⟩)

end Soft

/-! ## Theorems -/

/-! ### Claim C9: the kernel allocator facade's order mapping -/

theorem trailing_zeros_aux_pow {fuel k : Nat} (h : k < fuel) :
    trailing_zeros_aux fuel (2 ^ k) = k := by
  induction fuel generalizing k with
  | zero => omega
  | succ fuel ih =>
    cases k with
    | zero => simp [trailing_zeros_aux]
    | succ j =>
      have h2 : 2 ^ (j + 1) % 2 = 0 := by
        simp [Nat.pow_succ, Nat.mul_mod_left]
      have h3 : 2 ^ (j + 1) / 2 = 2 ^ j := by
        simp [Nat.pow_succ]
      simp only [trailing_zeros_aux, h2, h3]
      simp [ih (show j < fuel by omega)]

theorem trailing_zeros_pow {k : Nat} (h : k ≤ 63) : trailing_zeros (2 ^ k) = k := by
  have hne : (2 : Nat) ^ k ≠ 0 := (Nat.two_pow_pos k).ne'
  rw [trailing_zeros, if_neg hne]
  exact trailing_zeros_aux_pow (by omega)

/-- Claim C9: in PMM mode, every allocation of `(size, align)` is
forwarded to the buddy allocator at order
`⌈log2 (⌈max(size, align) / PAGE_SIZE⌉)⌉` (with `PAGE_SIZE = 4096`;
`Nat.clog 2` is the ceiling base-2 logarithm and `(n + 4095) / 4096` is
`⌈n / 4096⌉`), and every deallocation of `(size, align)` computes its
order by the same mapping. -/
theorem C9_facade_order_mapping (size align : Nat) (_h1 : 0 < align)
    (h2 : size < 2 ^ 64) (h3 : align < 2 ^ 64) :
    kernel_alloc_order size align = Nat.clog 2 ((max size align + 4095) / 4096) ∧
    kernel_dealloc_order size align = kernel_alloc_order size align := by
  refine ⟨?_, rfl⟩
  have hpages : (max size align + 4095) / 4096 ≤ 2 ^ 63 := by
    have hm : max size align ≤ 2 ^ 64 := by
      rcases Nat.max_le.mpr ⟨Nat.le_of_lt h2, Nat.le_of_lt h3⟩ with h
      exact h
    calc (max size align + 4095) / 4096 ≤ (2 ^ 64 + 4095) / 4096 :=
          Nat.div_le_div_right (by omega)
      _ ≤ 2 ^ 63 := by norm_num
  have hclog : Nat.clog 2 ((max size align + 4095) / 4096) ≤ 63 :=
    (Nat.le_pow_iff_clog_le (by norm_num)).mp hpages
  unfold kernel_alloc_order next_power_of_two
  exact trailing_zeros_pow hclog

theorem C9_facade_order_mapping_witness :
    0 < (8 : Nat) ∧
      (kernel_alloc_order 20000 8 = Nat.clog 2 ((max 20000 8 + 4095) / 4096) ∧
        kernel_dealloc_order 20000 8 = kernel_alloc_order 20000 8) :=
  ⟨by decide, C9_facade_order_mapping 20000 8 (by decide) (by norm_num) (by norm_num)⟩

/-! ### Claim C6: the section count of `from_boot_map` (corrected)

The source computes `max_frame / FRAMES_PER_SECTION + 1` with
`max_frame = max_addr / PAGE_SIZE`, i.e. the floor quotient plus one —
not the ceiling.  The two differ exactly when `max_addr` is a multiple of
`FRAMES_PER_SECTION * PAGE_SIZE` (the code then builds one extra, empty,
trailing section). -/

/-- Counterexample to claim C6 as stated: a boot map whose maximum
address is exactly one section's worth of bytes gets 2 sections, while
`⌈max_addr / (FRAMES_PER_SECTION * PAGE_SIZE)⌉ = 1`. -/
theorem C6_counterexample :
    (MemoryMap.from_boot_map [⟨0, FRAMES_PER_SECTION * PAGE_SIZE, false⟩]).sections.length ≠
      (FRAMES_PER_SECTION * PAGE_SIZE + (FRAMES_PER_SECTION * PAGE_SIZE - 1)) /
        (FRAMES_PER_SECTION * PAGE_SIZE) := by decide

/-- Claim C6, amended: for every non-empty boot map, `from_boot_map`
builds exactly `⌊max_addr / (FRAMES_PER_SECTION * PAGE_SIZE)⌋ + 1`
sections, where `max_addr` is the maximum of `base + length` over the
boot regions.  (This equals the claimed ceiling except when `max_addr`
is an exact multiple of `FRAMES_PER_SECTION * PAGE_SIZE`, where the code
builds one more section than the ceiling.) -/
theorem C6_section_count (bm : List BootMemoryRegion) (h : bm ≠ []) :
    (MemoryMap.from_boot_map bm).sections.length =
      (bm.foldl (fun m r => max m (r.base + r.size)) 0) / (FRAMES_PER_SECTION * PAGE_SIZE) + 1 := by
  rw [MemoryMap.from_boot_map, if_neg (by simpa using h)]
  simp only [List.length_map, List.length_range]
  rw [MemoryMap.section_count_for_address, Nat.div_div_eq_div_mul, Nat.mul_comm PAGE_SIZE]

theorem C6_section_count_witness :
    ([⟨0, 4096 * 100, true⟩] : List BootMemoryRegion) ≠ [] ∧
      (MemoryMap.from_boot_map [⟨0, 4096 * 100, true⟩]).sections.length =
        (([⟨0, 4096 * 100, true⟩] : List BootMemoryRegion).foldl
          (fun m r => max m (r.base + r.size)) 0) / (FRAMES_PER_SECTION * PAGE_SIZE) + 1 :=
  ⟨by decide, C6_section_count [⟨0, 4096 * 100, true⟩] (by decide)⟩

/-! ### Memory-map lookup lemmas (shared by claims C5 and C10) -/

theorem lt_div_succ_mul (z b : Nat) (hb : 0 < b) : z < (z / b + 1) * b := by
  calc z = b * (z / b) + z % b := (Nat.div_add_mod z b).symm
    _ < b * (z / b) + b := Nat.add_lt_add_left (Nat.mod_lt z hb) _
    _ = (z / b + 1) * b := by ring

theorem foldl_max_init_le (bm : List BootMemoryRegion) (a : Nat) :
    a ≤ bm.foldl (fun m r => max m (r.base + r.size)) a := by
  induction bm generalizing a with
  | nil => exact Nat.le_refl a
  | cons x xs ih => exact Nat.le_trans (Nat.le_max_left a (x.base + x.size)) (ih _)

theorem foldl_max_le_of_mem {bm : List BootMemoryRegion} {r : BootMemoryRegion}
    (hr : r ∈ bm) (a : Nat) :
    r.base + r.size ≤ bm.foldl (fun m r => max m (r.base + r.size)) a := by
  induction bm generalizing a with
  | nil => cases hr
  | cons x xs ih =>
    rcases List.mem_cons.mp hr with h | h
    · subst h
      exact Nat.le_trans (Nat.le_max_right a (r.base + r.size)) (foldl_max_init_le xs _)
    · exact ih h _

theorem build_section_empty_of_out_of_range {bm : List BootMemoryRegion} {idx : Nat}
    (h : ∀ r ∈ bm, r.usable = true → (r.base + r.size) / PAGE_SIZE ≤ idx * FRAMES_PER_SECTION) :
    build_section idx bm = Section.empty := by
  rw [build_section]
  have hfold : ∀ (l : List BootMemoryRegion),
      (∀ r ∈ l, r.usable = true → (r.base + r.size) / PAGE_SIZE ≤ idx * FRAMES_PER_SECTION) →
      l.foldl (build_section_step (idx * FRAMES_PER_SECTION) (idx * FRAMES_PER_SECTION +
        FRAMES_PER_SECTION)) (none, none) = (none, none) := by
    intro l hl
    induction l with
    | nil => rfl
    | cons x xs ih =>
      have hx : build_section_step (idx * FRAMES_PER_SECTION)
          (idx * FRAMES_PER_SECTION + FRAMES_PER_SECTION) (none, none) x = (none, none) := by
        rw [build_section_step]
        cases hu : x.usable with
        | false => simp
        | true =>
          have := hl x (List.mem_cons_self x xs) hu
          simp only [hu, Bool.not_true, Bool.false_eq_true, if_false]
          rw [if_pos (Or.inl this)]
      rw [List.foldl_cons, hx]
      exact ih (fun r hr => hl r (List.mem_cons_of_mem x hr))
  rw [hfold bm h]

theorem from_boot_map_frame (bm : List BootMemoryRegion) (n : Nat) :
    (MemoryMap.from_boot_map bm).frame n = (build_section (n / FRAMES_PER_SECTION) bm).frame n := by
  rw [MemoryMap.from_boot_map]
  by_cases hbm : bm.isEmpty
  · rw [if_pos hbm]
    have hbm2 : bm = [] := List.isEmpty_iff.mp hbm
    subst hbm2
    rw [MemoryMap.frame]
    simp only [List.get?]
    rw [build_section_empty_of_out_of_range (by intro r hr; cases hr)]
    rfl
  · rw [if_neg hbm]
    set max_address := bm.foldl (fun m r => max m (r.base + r.size)) 0 with hmax
    set count := MemoryMap.section_count_for_address max_address with hcount
    rw [MemoryMap.frame]
    set idx := n / FRAMES_PER_SECTION with hidx
    by_cases hlt : idx < count
    · have : ((List.range count).map (fun i => build_section i bm)).get? idx =
          some (build_section idx bm) := by
        rw [List.get?_map, List.get?_range hlt]
        rfl
      rw [this]
    · have hnone : ((List.range count).map (fun i => build_section i bm)).get? idx = none := by
        rw [List.get?_map, List.get?_eq_none.mpr (by simpa using Nat.le_of_not_lt hlt)]
        rfl
      rw [hnone]
      have hempty : build_section idx bm = Section.empty := by
        apply build_section_empty_of_out_of_range
        intro r hr _
        have h1 : r.base + r.size ≤ max_address := foldl_max_le_of_mem hr 0
        have h2 : (r.base + r.size) / PAGE_SIZE ≤ max_address / PAGE_SIZE :=
          Nat.div_le_div_right h1
        have h3 : max_address / PAGE_SIZE < count * FRAMES_PER_SECTION := by
          rw [hcount, MemoryMap.section_count_for_address]
          exact lt_div_succ_mul _ _ (by decide)
        have h4 : count * FRAMES_PER_SECTION ≤ idx * FRAMES_PER_SECTION :=
          Nat.mul_le_mul_right _ (Nat.le_of_not_lt hlt)
        exact Nat.le_of_lt (Nat.lt_of_le_of_lt h2 (Nat.lt_of_lt_of_le h3 h4))
      rw [hempty]
      rfl

/-- The slice-containment predicate of claim C5: section `s` has an
allocated slice and `n` falls within `[start, start + len)`. -/
def slice_covers (s : Section) (n : Nat) : Prop :=
  match s.frames with
  | none => False
  | some fs => s.start_frame ≤ n ∧ n < s.start_frame + fs.length

instance (s : Section) (n : Nat) : Decidable (slice_covers s n) := by
  unfold slice_covers
  cases s.frames
  · exact isFalse id
  · exact instDecidableAnd

theorem Section.frame_isSome_iff (s : Section) (n : Nat) :
    (s.frame n).isSome ↔ slice_covers s n := by
  rw [Section.frame, slice_covers]
  cases hf : s.frames with
  | none => simp
  | some fs =>
    dsimp only
    by_cases hb : s.start_frame ≤ n ∧ n < s.start_frame + fs.length
    · rw [if_pos hb]
      constructor
      · intro _; exact hb
      · intro _
        rw [Option.isSome_iff_ne_none]
        intro hc
        rw [List.get?_eq_none] at hc
        omega
    · rw [if_neg hb]
      simpa using hb

theorem build_section_frame_elim {bm : List BootMemoryRegion} {idx n : Nat} {f : Frame}
    (h : (build_section idx bm).frame n = some f) :
    f.reserved = !is_frame_usable (n * PAGE_SIZE) bm ∧ f.order = ORDER_NOT_BUDDY ∧
      f.allocated = false := by
  rw [build_section] at h
  rcases hfold : bm.foldl (build_section_step (idx * FRAMES_PER_SECTION)
      (idx * FRAMES_PER_SECTION + FRAMES_PER_SECTION)) (none, none) with ⟨omn, omx⟩
  rw [hfold] at h
  match omn, omx with
  | none, none => simp [Section.empty, Section.frame] at h
  | none, some mx => simp [Section.empty, Section.frame] at h
  | some mn, none => simp [Section.empty, Section.frame] at h
  | some mn, some mx =>
    rw [Section.frame] at h
    dsimp only at h
    split at h
    case isFalse => exact absurd h (by simp)
    case isTrue hb =>
      rw [List.get?_map] at h
      have hblen : n < mn + (mx - mn) := by
        have := hb.2
        simpa [List.length_map, List.length_range] using this
      have hmnle : mn ≤ n := hb.1
      have hin : n - mn < mx - mn := by omega
      rw [List.get?_range hin] at h
      rw [Option.map_some'] at h
      have hmn : mn + (n - mn) = n := by omega
      rw [hmn] at h
      by_cases hu : is_frame_usable (n * PAGE_SIZE) bm
      · rw [if_pos hu] at h
        have hf : Frame.default = f := Option.some.inj h
        rw [← hf]
        simp [Frame.default, hu]
      · rw [if_neg (by simpa using hu)] at h
        have hf : { Frame.default with reserved := true } = f := Option.some.inj h
        rw [← hf]
        simp only [Bool.not_eq_true] at hu
        simp [Frame.default, hu]

/-! ### Claim C5: memory-map frame lookup and the last-wins override -/

/-- Claim C5: `frame n` returns a frame exactly when `n` falls within the
allocated slice `[start, start + len)` of the section built for index
`n / FRAMES_PER_SECTION` (absent outside every allocated slice), and the
returned frame is `Reserved` exactly when `n`'s address is not usable
under the last-region-wins override rule. -/
theorem C5_frame_lookup (bm : List BootMemoryRegion) (n : Nat) :
    (((MemoryMap.from_boot_map bm).frame n).isSome ↔
      slice_covers (build_section (n / FRAMES_PER_SECTION) bm) n) ∧
    (∀ f, (MemoryMap.from_boot_map bm).frame n = some f →
      (f.reserved = true ↔ is_frame_usable (n * PAGE_SIZE) bm = false)) := by
  constructor
  · rw [from_boot_map_frame]
    exact Section.frame_isSome_iff _ n
  · intro f hf
    rw [from_boot_map_frame] at hf
    have := (build_section_frame_elim hf).1
    rw [this]
    cases is_frame_usable (n * PAGE_SIZE) bm <;> simp

theorem C5_frame_lookup_witness :
    ((MemoryMap.from_boot_map [⟨0, 4096 * 100, true⟩, ⟨4096 * 40, 4096 * 20, false⟩]).frame 50 =
      some { allocated := false, reserved := true, order := 255 }) ∧
    (({ allocated := false, reserved := true, order := 255 } : Frame).reserved = true ↔
      is_frame_usable (50 * PAGE_SIZE) [⟨0, 4096 * 100, true⟩, ⟨4096 * 40, 4096 * 20, false⟩]
        = false) :=
  ⟨by decide,
   (C5_frame_lookup [⟨0, 4096 * 100, true⟩, ⟨4096 * 40, 4096 * 20, false⟩] 50).2
     { allocated := false, reserved := true, order := 255 } (by decide)⟩

/-! ### Claim C10: the `ORDER_NOT_BUDDY` sentinel blocks coalescing -/

/-- Claim C10: every frame record created by memory-map construction has
its order byte initialized to `ORDER_NOT_BUDDY` (0xFF); a buddy frame
whose order byte is the sentinel never passes the `is_buddy_free` check
(which requires the order byte to equal the current order, at most
`MAX_ORDER`); and when the buddy check fails, `deallocate`'s coalescing
loop stops immediately and just pushes the block at its own order. -/
theorem C10_sentinel_blocks_coalescing :
    (∀ (bm : List BootMemoryRegion) (n : Nat) (f : Frame),
      (MemoryMap.from_boot_map bm).frame n = some f → f.order = ORDER_NOT_BUDDY) ∧
    (∀ (m : MemoryMap) (b k : Nat) (f : Frame), k ≤ MAX_ORDER →
      m.frame (b / PAGE_SIZE) = some f → f.order = ORDER_NOT_BUDDY →
      PhysicalMemoryManager.is_buddy_free m b k = false) ∧
    (∀ (st : PhysicalMemoryManager) (addr k : Nat),
      PhysicalMemoryManager.is_buddy_free st.memory_map
        (PhysicalMemoryManager.buddy_address addr k) k = false →
      PhysicalMemoryManager.coalesce st addr k = st.add_to_free_list addr k) := by
  refine ⟨?_, ?_, ?_⟩
  · intro bm n f hf
    rw [from_boot_map_frame] at hf
    exact (build_section_frame_elim hf).2.1
  · intro m b k f hk hf ho
    rw [PhysicalMemoryManager.is_buddy_free, hf]
    have : (f.order == k) = false := by
      rw [ho, ORDER_NOT_BUDDY]
      rw [MAX_ORDER] at hk
      simp
      omega
    simp [this]
  · intro st addr k hfree
    rw [PhysicalMemoryManager.coalesce]
    cases hfuel : MAX_ORDER - k with
    | zero => rfl
    | succ fuel =>
      rw [PhysicalMemoryManager.coalesce_fuel]
      simp only [hfree, Bool.false_eq_true, if_false]

theorem C10_sentinel_blocks_coalescing_witness :
    ((MemoryMap.from_boot_map [⟨0, 4096 * 4, true⟩]).frame 0 =
      some { allocated := false, reserved := false, order := 255 }) ∧
    (({ allocated := false, reserved := false, order := 255 } : Frame).order = ORDER_NOT_BUDDY) ∧
    (PhysicalMemoryManager.is_buddy_free (MemoryMap.from_boot_map [⟨0, 4096 * 4, true⟩]) 0 3
      = false) :=
  ⟨by decide, by decide,
   C10_sentinel_blocks_coalescing.2.1 (MemoryMap.from_boot_map [⟨0, 4096 * 4, true⟩]) 0 3
     { allocated := false, reserved := false, order := 255 } (by decide) (by decide) (by decide)⟩

/-! ### Bitwise helper lemmas -/

theorem and_shiftLeft (a b t : Nat) : (a <<< t) &&& (b <<< t) = (a &&& b) <<< t := by
  apply Nat.eq_of_testBit_eq
  intro i
  simp only [Nat.testBit_and, Nat.testBit_shiftLeft]
  rcases le_or_lt t i with h | h
  · simp [h]
  · simp [Nat.not_le_of_lt h]

theorem xor_shiftLeft (a b t : Nat) : (a <<< t) ^^^ (b <<< t) = (a ^^^ b) <<< t := by
  apply Nat.eq_of_testBit_eq
  intro i
  simp only [Nat.testBit_xor, Nat.testBit_shiftLeft]
  rcases le_or_lt t i with h | h
  · simp [h]
  · simp [Nat.not_le_of_lt h]

theorem mul_pow_xor (m b t : Nat) : (m * 2 ^ t) ^^^ (b * 2 ^ t) = (m ^^^ b) * 2 ^ t := by
  have h1 : m * 2 ^ t = m <<< t := (Nat.shiftLeft_eq m t).symm
  have h2 : b * 2 ^ t = b <<< t := (Nat.shiftLeft_eq b t).symm
  have h3 : (m ^^^ b) * 2 ^ t = (m ^^^ b) <<< t := (Nat.shiftLeft_eq _ t).symm
  rw [h1, h2, h3, xor_shiftLeft]

/-- Toggling the low bit of an even number adds one. -/
theorem two_mul_xor_one (q : Nat) : (2 * q) ^^^ 1 = 2 * q + 1 := by
  apply Nat.eq_of_testBit_eq
  intro i
  cases i with
  | zero =>
    rw [Nat.testBit_xor]
    simp only [Nat.testBit_zero]
    simp [Nat.mul_mod_right, Nat.mul_add_mod]
  | succ j =>
    rw [Nat.testBit_xor, Nat.testBit_add_one, Nat.testBit_add_one, Nat.testBit_add_one]
    have h1 : 2 * q / 2 = q := by omega
    have h2 : (2 * q + 1) / 2 = q := by omega
    have h3 : (1 : Nat) / 2 = 0 := rfl
    rw [h1, h2, h3]
    simp

/-- Toggling the low bit of an odd number subtracts one. -/
theorem two_mul_add_one_xor_one (q : Nat) : (2 * q + 1) ^^^ 1 = 2 * q := by
  apply Nat.eq_of_testBit_eq
  intro i
  cases i with
  | zero =>
    rw [Nat.testBit_xor]
    simp only [Nat.testBit_zero]
    simp [Nat.mul_mod_right, Nat.mul_add_mod]
  | succ j =>
    rw [Nat.testBit_xor, Nat.testBit_add_one, Nat.testBit_add_one, Nat.testBit_add_one]
    have h1 : 2 * q / 2 = q := by omega
    have h2 : (2 * q + 1) / 2 = q := by omega
    have h3 : (1 : Nat) / 2 = 0 := rfl
    rw [h1, h2, h3]
    simp

theorem xor_one_eq (m : Nat) : m ^^^ 1 = if m % 2 = 0 then m + 1 else m - 1 := by
  rcases Nat.even_or_odd m with ⟨q, hq⟩ | ⟨q, hq⟩
  · have h2 : m = 2 * q := by omega
    rw [h2, two_mul_xor_one, if_pos (by omega)]
  · have h2 : m = 2 * q + 1 := by omega
    rw [h2, two_mul_add_one_xor_one, if_neg (by omega)]
    simp

/-! ### Claim C4: page-directory map/unmap inverse (software arch) -/

theorem entry_roundtrip {p : Nat} (flags : Nat) (hp : p % 16 = 0) (hp16 : p < 2 ^ 16) :
    Soft.entry_address (Soft.entry_new p (flags ||| Soft.PRESENT)) = some p := by
  have hand16 : p &&& 0xFFFF = p := by
    have h : (0xFFFF : Nat) = 2 ^ 16 - 1 := by norm_num
    rw [h]
    exact Nat.and_pow_two_sub_one_of_lt_two_pow hp16
  have hcan : Soft.canonicalize p &&& 0xFFF0 = p &&& 0xFFF0 := by
    simp only [Soft.canonicalize, hand16]
    by_cases h8 : p &&& 0x8000 ≠ 0
    · rw [if_pos h8, Nat.and_distrib_right]
      have hc : (0xFFFFFFFFFFFF0000 : Nat) &&& 0xFFF0 = 0 := by decide
      rw [hc, Nat.or_zero]
    · rw [if_neg h8]
  have hlow : p &&& 0xFFF0 = p := by
    obtain ⟨q, hpq⟩ := Nat.dvd_of_mod_eq_zero hp
    subst hpq
    have hq12 : q < 2 ^ 12 := by omega
    have h1 : 16 * q = q <<< 4 := by rw [Nat.shiftLeft_eq]; ring
    have h2 : (0xFFF0 : Nat) = 0xFFF <<< 4 := by decide
    rw [h1, h2, and_shiftLeft]
    have h3 : q &&& 0xFFF = q := by
      have h : (0xFFF : Nat) = 2 ^ 12 - 1 := by norm_num
      rw [h]
      exact Nat.and_pow_two_sub_one_of_lt_two_pow hq12
    rw [h3]
  set f := flags ||| Soft.PRESENT with hf
  have hE4 : Soft.entry_new p f &&& 0xF = f &&& 0xF := by
    rw [Soft.entry_new, Soft.ADDRESS_MASK, Soft.FLAGS_MASK, Nat.and_distrib_right]
    rw [Nat.and_assoc, Nat.and_assoc]
    have hc1 : (0xFFFF0 : Nat) &&& 0xF = 0 := by decide
    have hc2 : (0xF : Nat) &&& 0xF = 0xF := by decide
    rw [hc1, hc2, Nat.and_zero, Nat.zero_or]
  have hpres : Soft.entry_is_present (Soft.entry_new p f) = true := by
    rw [Soft.entry_is_present, Soft.FLAGS_MASK, Soft.PRESENT]
    rw [show (15 : Nat) = 0xF from rfl, hE4]
    rw [Nat.and_assoc]
    have hc : (0xF : Nat) &&& 1 = 1 := by decide
    rw [hc]
    have hmod : f &&& 1 = 1 := by
      rw [Nat.and_one_is_mod, hf, Soft.PRESENT]
      simp
    rw [hmod]
    decide
  rw [Soft.entry_address, if_pos hpres]
  rw [Soft.entry_new, Soft.ADDRESS_MASK, Soft.FLAGS_MASK]
  rw [Nat.and_distrib_right]
  rw [Nat.and_assoc, Nat.and_assoc]
  have hc1 : (0xFFFF0 : Nat) &&& 0xFFFF0 = 0xFFFF0 := by decide
  have hc2 : (0xF : Nat) &&& 0xFFFF0 = 0 := by decide
  rw [hc1, hc2, Nat.and_zero, Nat.or_zero, Nat.and_assoc]
  have hc3 : (0xFFFF0 : Nat) &&& 0xFFFF = 0xFFF0 := by decide
  rw [hc3, hcan, hlow]

/-- Claim C4: for a page-aligned virtual address `v`, a page-aligned
physical address `p` (within the architecture's 16-bit physical range),
and flags containing `Present`, starting from any directory state in
which `v` is unmapped: after `map(v, p, flags)` the first `unmap(v)`
returns `Some p` and a second `unmap(v)` returns `None`. -/
theorem C4_map_unmap_inverse (pd : Soft.PageDirectory) (v p flags : Nat)
    (_hv : v % Soft.PAGE_SIZE = 0) (hp : p % Soft.PAGE_SIZE = 0) (hp16 : p < 2 ^ 16)
    (_hpresent : flags &&& Soft.PRESENT ≠ 0)
    (_hunmapped : ((pd.unmap v).1 = none)) :
    (((pd.map v p flags).unmap v).1 = some p) ∧
    ((((pd.map v p flags).unmap v).2.unmap v).1 = none) := by
  have hp16div : p % 16 = 0 := hp
  have hrt := entry_roundtrip flags hp16div hp16
  constructor
  · simp only [Soft.PageDirectory.map, Soft.PageDirectory.unmap]
    simp [hrt]
  · simp only [Soft.PageDirectory.map, Soft.PageDirectory.unmap]
    simp [hrt]
    rfl

theorem C4_map_unmap_inverse_witness :
    (0x100 : Nat) % Soft.PAGE_SIZE = 0 ∧ (0x200 : Nat) % Soft.PAGE_SIZE = 0 ∧
    (0x200 : Nat) < 2 ^ 16 ∧ ((3 : Nat) &&& Soft.PRESENT ≠ 0) ∧
    ((Soft.PageDirectory.new.unmap 0x100).1 = none) ∧
    (((Soft.PageDirectory.new.map 0x100 0x200 3).unmap 0x100).1 = some 0x200) ∧
    ((((Soft.PageDirectory.new.map 0x100 0x200 3).unmap 0x100).2.unmap 0x100).1 = none) := by
  refine ⟨by decide, by decide, by decide, by decide, by decide, ?_⟩
  have h := C4_map_unmap_inverse Soft.PageDirectory.new 0x100 0x200 3
    (by decide) (by decide) (by decide) (by decide) (by decide)
  exact ⟨h.1, h.2⟩

/-! ### State-update lemmas for the buddy allocator -/

theorem listModify_length (f : α → α) (i : Nat) (l : List α) :
    (listModify f i l).length = l.length := by
  induction l generalizing i with
  | nil => cases i <;> rfl
  | cons a as ih =>
    cases i with
    | zero => rfl
    | succ j => simp [listModify, ih]

theorem listModify_get? (f : α → α) (i j : Nat) (l : List α) :
    (listModify f i l).get? j = if j = i then (l.get? j).map f else l.get? j := by
  induction l generalizing i j with
  | nil => cases i <;> simp [listModify]
  | cons a as ih =>
    cases i with
    | zero =>
      cases j with
      | zero => simp [listModify]
      | succ j2 => simp [listModify]
    | succ i2 =>
      cases j with
      | zero => simp [listModify]
      | succ j2 =>
        simp only [listModify, List.get?]
        rw [ih]
        by_cases h : j2 = i2
        · rw [if_pos h, if_pos (by omega)]
        · rw [if_neg h, if_neg (by omega)]

theorem Section.modify_frame_lookup (s : Section) (n1 n2 : Nat) (f : Frame → Frame) :
    (s.modify_frame n2 f).frame n1 = if n1 = n2 then (s.frame n1).map f else s.frame n1 := by
  rw [Section.modify_frame]
  cases hf : s.frames with
  | none =>
    rw [Section.frame, hf]
    by_cases h : n1 = n2 <;> simp [h, Section.frame, hf]
  | some fs =>
    dsimp only
    by_cases hb2 : s.start_frame ≤ n2 ∧ n2 < s.start_frame + fs.length
    · rw [if_pos hb2]
      rw [Section.frame, Section.frame, hf]
      dsimp only
      rw [listModify_length]
      by_cases hb1 : s.start_frame ≤ n1 ∧ n1 < s.start_frame + fs.length
      · rw [if_pos hb1, if_pos hb1, listModify_get?]
        by_cases h : n1 = n2
        · rw [if_pos (by omega), if_pos h]
        · rw [if_neg (by omega), if_neg h]
      · rw [if_neg hb1, if_neg hb1]
        by_cases h : n1 = n2
        · rw [if_pos h]
          subst h
          exact absurd hb2 hb1
        · rw [if_neg h]
    · rw [if_neg hb2]
      by_cases h : n1 = n2
      · subst h
        rw [if_pos rfl, Section.frame, hf]
        dsimp only
        rw [if_neg hb2]
        rfl
      · rw [if_neg h]

theorem MemoryMap.modify_frame_frame (m : MemoryMap) (n1 n2 : Nat) (f : Frame → Frame) :
    (m.modify_frame n2 f).frame n1 = if n1 = n2 then (m.frame n1).map f else m.frame n1 := by
  rw [MemoryMap.modify_frame, MemoryMap.frame, MemoryMap.frame]
  dsimp only
  rw [listModify_get?]
  by_cases hidx : n1 / FRAMES_PER_SECTION = n2 / FRAMES_PER_SECTION
  · rw [if_pos hidx]
    cases hs : m.sections.get? (n1 / FRAMES_PER_SECTION) with
    | none =>
      rw [Option.map_none']
      by_cases h : n1 = n2 <;> simp [h]
    | some s =>
      rw [Option.map_some']
      dsimp only
      rw [Section.modify_frame_lookup]
  · rw [if_neg hidx]
    have h : n1 ≠ n2 := by
      intro hc
      exact hidx (by rw [hc])
    rw [if_neg h]

namespace PhysicalMemoryManager

theorem add_to_free_list_lists (st : PhysicalMemoryManager) (a k o : Nat) :
    (st.add_to_free_list a k).free_lists o =
      if o = k then a :: st.free_lists k else st.free_lists o := by
  rw [add_to_free_list]
  rfl

theorem add_to_free_list_map (st : PhysicalMemoryManager) (a k : Nat) :
    (st.add_to_free_list a k).memory_map =
      st.memory_map.modify_frame (a / PAGE_SIZE) (fun fr => { fr with order := k }) := by
  rw [add_to_free_list]

theorem remove_from_free_list_lists (st : PhysicalMemoryManager) (a k o : Nat) :
    (st.remove_from_free_list a k).free_lists o =
      if o = k then removeFirst a (st.free_lists k) else st.free_lists o := by
  rw [remove_from_free_list]
  rfl

theorem remove_from_free_list_map (st : PhysicalMemoryManager) (a k : Nat) :
    (st.remove_from_free_list a k).memory_map = st.memory_map := by
  rw [remove_from_free_list]

/-- The descending split loop, unfolded one iteration at the top
(`split_block` pushes at order `t + n` first, then recurses). -/
theorem split_block_succ (st : PhysicalMemoryManager) (addr t n : Nat) :
    split_block st addr (t + (n + 1)) t =
      split_block (st.add_to_free_list (addr + 2 ^ (t + n) * PAGE_SIZE) (t + n)) addr (t + n) t := by
  rw [split_block, split_block]
  have h1 : t + (n + 1) - t = n + 1 := by omega
  have h2 : t + n - t = n := by omega
  rw [h1, h2, List.range'_concat, List.reverse_append, List.reverse_singleton,
    List.singleton_append, List.foldl_cons]
  simp only [Nat.one_mul]

theorem split_block_zero (st : PhysicalMemoryManager) (addr t : Nat) :
    split_block st addr (t + 0) t = st := by
  rw [split_block]
  have h1 : t + 0 - t = 0 := by omega
  rw [h1]
  rfl

theorem split_block_lists (st : PhysicalMemoryManager) (addr t o : Nat) :
    ∀ n, (split_block st addr (t + n) t).free_lists o =
      if t ≤ o ∧ o < t + n then (addr + 2 ^ o * PAGE_SIZE) :: st.free_lists o
      else st.free_lists o := by
  intro n
  induction n generalizing st with
  | zero =>
    rw [split_block_zero]
    rw [if_neg (by omega)]
  | succ n ih =>
    rw [split_block_succ, ih]
    simp only [add_to_free_list_lists]
    by_cases ho2 : o = t + n
    · subst ho2
      rw [if_neg (by omega), if_pos rfl, if_pos (by omega)]
    · by_cases ho : t ≤ o ∧ o < t + n
      · rw [if_pos ho, if_neg ho2, if_pos (by omega)]
      · rw [if_neg ho, if_neg ho2, if_neg (by omega)]

theorem two_pow_right_inj {a b : Nat} (h : (2 : Nat) ^ a = 2 ^ b) : a = b :=
  Nat.pow_right_injective (by norm_num) h

theorem split_block_map_frame_other (st : PhysicalMemoryManager) (addr t m : Nat) :
    ∀ n, (∀ o, t ≤ o → o < t + n → m ≠ addr / PAGE_SIZE + 2 ^ o) →
      (split_block st addr (t + n) t).memory_map.frame m = st.memory_map.frame m := by
  intro n
  induction n generalizing st with
  | zero =>
    intro _
    rw [split_block_zero]
  | succ n ih =>
    intro hne
    rw [split_block_succ, ih _ (fun o h1 h2 => hne o h1 (by omega))]
    rw [add_to_free_list_map, MemoryMap.modify_frame_frame]
    have hdiv : (addr + 2 ^ (t + n) * PAGE_SIZE) / PAGE_SIZE = addr / PAGE_SIZE + 2 ^ (t + n) :=
      Nat.add_mul_div_right addr _ (by decide)
    rw [hdiv, if_neg (hne (t + n) (by omega) (by omega))]

theorem split_block_map_frame_buddy (st : PhysicalMemoryManager) (addr t o : Nat) :
    ∀ n, t ≤ o → o < t + n →
      (split_block st addr (t + n) t).memory_map.frame (addr / PAGE_SIZE + 2 ^ o) =
        (st.memory_map.frame (addr / PAGE_SIZE + 2 ^ o)).map
          (fun fr => { fr with order := o }) := by
  intro n
  induction n generalizing st with
  | zero => omega
  | succ n ih =>
    intro h1 h2
    rw [split_block_succ]
    have hdiv : (addr + 2 ^ (t + n) * PAGE_SIZE) / PAGE_SIZE = addr / PAGE_SIZE + 2 ^ (t + n) :=
      Nat.add_mul_div_right addr _ (by decide)
    by_cases ho : o = t + n
    · subst ho
      rw [split_block_map_frame_other]
      · rw [add_to_free_list_map, MemoryMap.modify_frame_frame, hdiv, if_pos rfl]
      · intro o2 ha hb hc
        have : 2 ^ (t + n) = 2 ^ o2 := by omega
        have := two_pow_right_inj this
        omega
    · rw [ih _ h1 (by omega)]
      rw [add_to_free_list_map, MemoryMap.modify_frame_frame, hdiv]
      rw [if_neg (by
        intro hc
        have : 2 ^ o = 2 ^ (t + n) := by omega
        have := two_pow_right_inj this
        omega)]

end PhysicalMemoryManager

namespace PhysicalMemoryManager

theorem find_free_order_from_none {fl : Nat → List Nat} {k : Nat}
    (h : ∀ o, k ≤ o → o ≤ MAX_ORDER → fl o = []) : find_free_order_from fl k = none := by
  rw [find_free_order_from]
  apply List.find?_eq_none.mpr
  intro x hx
  rw [List.mem_range'_1] at hx
  have hx2 : x ≤ MAX_ORDER := by omega
  rw [h x hx.1 hx2]
  simp

theorem find_free_order_from_eq {fl : Nat → List Nat} {j : Nat} (hj : j ≤ MAX_ORDER)
    (hne : fl j ≠ []) :
    ∀ d k, j - k = d → k ≤ j → (∀ o, k ≤ o → o < j → fl o = []) →
      find_free_order_from fl k = some j := by
  intro d
  induction d with
  | zero =>
    intro k hd hk _
    have hkj : k = j := by omega
    subst hkj
    rw [find_free_order_from]
    have hr : MAX_ORDER + 1 - k = (MAX_ORDER - k) + 1 := by omega
    rw [hr, List.range'_succ]
    have hpred : (fun o => !(fl o).isEmpty) k = true := by
      show (!(fl k).isEmpty) = true
      cases hfl : fl k with
      | nil => exact absurd hfl hne
      | cons a as => rfl
    exact List.find?_cons_of_pos _ hpred
  | succ d ih =>
    intro k hd hk hemp
    have hkj : k < j := by omega
    rw [find_free_order_from]
    have hr : MAX_ORDER + 1 - k = (MAX_ORDER - k) + 1 := by omega
    rw [hr, List.range'_succ]
    have hpred : ¬ ((fun o => !(fl o).isEmpty) k = true) := by
      show ¬ ((!(fl k).isEmpty) = true)
      rw [hemp k (Nat.le_refl k) hkj]
      simp
    have heq : List.find? (fun o => !(fl o).isEmpty)
        (List.range' (k + 1) (MAX_ORDER - k)) = find_free_order_from fl (k + 1) := by
      rw [find_free_order_from]
      have h2 : MAX_ORDER + 1 - (k + 1) = MAX_ORDER - k := by omega
      rw [h2]
    rw [List.find?_cons_of_neg]
    · rw [heq]
      exact ih (k + 1) (by omega) (by omega) (fun o h1 h2 => hemp o (by omega) h2)
    · exact hpred

/-- Claim C1: `allocate(k)` fails with `OrderTooLarge` (state unchanged)
for `k > MAX_ORDER`; fails with `OutOfMemory` (state unchanged) when the
free lists at all orders `k..=MAX_ORDER` are empty; and otherwise, with
`j` the smallest order `≥ k` with a non-empty list and `B` that list's
head: it pops `B`, pushes the upper half `B + 2^o * PAGE_SIZE` onto free
list `o` (setting that frame's order byte to `o`) for each
`o = j-1, …, k`, marks `B`'s leading frame `Allocated` with order byte
`k`, leaves every other frame untouched, and returns `Ok B`. -/
theorem C1_allocate_spec (st : PhysicalMemoryManager) (k : Nat) :
    (k > MAX_ORDER → st.allocate k = (.error .orderTooLarge, st)) ∧
    (k ≤ MAX_ORDER → (∀ o, k ≤ o → o ≤ MAX_ORDER → st.free_lists o = []) →
      st.allocate k = (.error .outOfMemory, st)) ∧
    (∀ j B rest, k ≤ j → j ≤ MAX_ORDER →
      (∀ o, k ≤ o → o < j → st.free_lists o = []) →
      st.free_lists j = B :: rest →
      (st.allocate k).1 = .ok B ∧
      (∀ o, (st.allocate k).2.free_lists o =
        if o = j then rest
        else if k ≤ o ∧ o < j then (B + 2 ^ o * PAGE_SIZE) :: st.free_lists o
        else st.free_lists o) ∧
      ((st.allocate k).2.memory_map.frame (B / PAGE_SIZE) =
        (st.memory_map.frame (B / PAGE_SIZE)).map
          (fun fr => { fr with allocated := true, order := k })) ∧
      (∀ o, k ≤ o → o < j →
        (st.allocate k).2.memory_map.frame (B / PAGE_SIZE + 2 ^ o) =
          (st.memory_map.frame (B / PAGE_SIZE + 2 ^ o)).map
            (fun fr => { fr with order := o })) ∧
      (∀ m, m ≠ B / PAGE_SIZE → (∀ o, k ≤ o → o < j → m ≠ B / PAGE_SIZE + 2 ^ o) →
        (st.allocate k).2.memory_map.frame m = st.memory_map.frame m)) := by
  refine ⟨?_, ?_, ?_⟩
  · intro hk
    rw [allocate, if_pos hk]
  · intro hk hemp
    rw [allocate, if_neg (by omega), find_free_order_from_none hemp]
  · intro j B rest hkj hj hemp hlist
    have hkm : ¬ k > MAX_ORDER := by omega
    have hfind : find_free_order_from st.free_lists k = some j :=
      find_free_order_from_eq hj (by rw [hlist]; simp) (j - k) k rfl hkj hemp
    have halloc : st.allocate k =
        (.ok B,
          { memory_map :=
              (split_block { st with free_lists := setList st.free_lists j rest } B j k).memory_map.modify_frame
                (B / PAGE_SIZE) (fun fr => { fr with allocated := true, order := k }),
            free_lists :=
              (split_block { st with free_lists := setList st.free_lists j rest } B j k).free_lists }) := by
      rw [allocate, if_neg hkm, hfind]
      dsimp only
      rw [hlist]
    set st1 : PhysicalMemoryManager := { st with free_lists := setList st.free_lists j rest }
      with hst1
    have hst1l : ∀ o, st1.free_lists o = if o = j then rest else st.free_lists o := fun o => rfl
    have hst1m : st1.memory_map = st.memory_map := rfl
    have hjk : k + (j - k) = j := by omega
    refine ⟨by rw [halloc], ?_, ?_, ?_, ?_⟩
    · intro o
      have hsl := split_block_lists st1 B k o (j - k)
      rw [hjk] at hsl
      rw [halloc]
      show (split_block st1 B j k).free_lists o = _
      rw [hsl, hst1l]
      by_cases h1 : o = j
      · rw [if_neg (by omega), if_pos h1, if_pos h1]
      · rw [if_neg h1, if_neg h1]
    · have hso := split_block_map_frame_other st1 B k (B / PAGE_SIZE) (j - k)
        (by intro o h1 h2 hc; have := Nat.two_pow_pos o; omega)
      rw [hjk] at hso
      rw [halloc]
      show ((split_block st1 B j k).memory_map.modify_frame (B / PAGE_SIZE) _).frame (B / PAGE_SIZE)
        = _
      rw [MemoryMap.modify_frame_frame, if_pos rfl, hso, hst1m]
    · intro o h1 h2
      have hsb := split_block_map_frame_buddy st1 B k o (j - k) h1 (by omega)
      rw [hjk] at hsb
      rw [halloc]
      show ((split_block st1 B j k).memory_map.modify_frame (B / PAGE_SIZE) _).frame
        (B / PAGE_SIZE + 2 ^ o) = _
      rw [MemoryMap.modify_frame_frame,
        if_neg (by have := Nat.two_pow_pos o; omega), hsb, hst1m]
    · intro m hm1 hm2
      have hso := split_block_map_frame_other st1 B k m (j - k)
        (fun o ha hb => hm2 o ha (by omega))
      rw [hjk] at hso
      rw [halloc]
      show ((split_block st1 B j k).memory_map.modify_frame (B / PAGE_SIZE) _).frame m = _
      rw [MemoryMap.modify_frame_frame, if_neg hm1, hso, hst1m]

end PhysicalMemoryManager

/-- A small concrete buddy-allocator state used by witnesses: 64 frames
of usable memory, with the single order-2 block at address 0 free. -/
def pmm_example : PhysicalMemoryManager :=
  (PhysicalMemoryManager.new (MemoryMap.from_boot_map [⟨0, 4096 * 64, true⟩])).deallocate 0 2

theorem C1_allocate_spec_witness :
    (2 : Nat) ≤ 2 ∧ (2 : Nat) ≤ MAX_ORDER ∧ pmm_example.free_lists 2 = 0 :: [] ∧
      (pmm_example.allocate 2).1 = .ok 0 :=
  ⟨Nat.le_refl 2, by decide, by decide,
    ((PhysicalMemoryManager.C1_allocate_spec pmm_example 2).2.2 2 0 []
      (Nat.le_refl 2) (by decide)
      (fun o h1 h2 => absurd h2 (by omega))
      (by decide)).1⟩

namespace PhysicalMemoryManager

theorem coalesce_stop {st : PhysicalMemoryManager} {addr k : Nat} (hk : ¬ k < MAX_ORDER) :
    coalesce st addr k = st.add_to_free_list addr k := by
  rw [coalesce]
  have h : MAX_ORDER - k = 0 := by omega
  rw [h]
  rfl

theorem coalesce_step {st : PhysicalMemoryManager} {addr k : Nat} (hk : k < MAX_ORDER) :
    coalesce st addr k =
      if is_buddy_free st.memory_map (buddy_address addr k) k then
        coalesce (st.remove_from_free_list (buddy_address addr k) k)
          (min addr (buddy_address addr k)) (k + 1)
      else st.add_to_free_list addr k := by
  conv =>
    lhs
    rw [coalesce]
  have h : MAX_ORDER - k = (MAX_ORDER - (k + 1)) + 1 := by omega
  rw [h, coalesce_fuel]
  rw [coalesce]

theorem deallocate_eq {st : PhysicalMemoryManager} {base k : Nat} (hk : k ≤ MAX_ORDER) :
    st.deallocate base k =
      coalesce
        (PhysicalMemoryManager.mk
          (st.memory_map.modify_frame (base / PAGE_SIZE)
            (fun fr => { fr with allocated := false, order := k }))
          st.free_lists)
        base k := by
  rw [deallocate, if_neg (by omega)]

theorem is_buddy_free_congr {m1 m2 : MemoryMap} (b k : Nat)
    (h : m1.frame (b / PAGE_SIZE) = m2.frame (b / PAGE_SIZE)) :
    is_buddy_free m1 b k = is_buddy_free m2 b k := by
  rw [is_buddy_free, is_buddy_free, h]

theorem xor_cancel_right (a b : Nat) : (a ^^^ b) ^^^ b = a := by
  rw [Nat.xor_assoc, Nat.xor_self, Nat.xor_zero]

theorem page_size_eq_pow : PAGE_SIZE = 2 ^ 12 := rfl

theorem page_pow (k : Nat) : 2 ^ k * PAGE_SIZE = 2 ^ (k + 12) := by
  rw [page_size_eq_pow, ← Nat.pow_add]

theorem mul_pow_div_page (c k : Nat) : c * 2 ^ (k + 12) / PAGE_SIZE = c * 2 ^ k := by
  have h : c * 2 ^ (k + 12) = c * 2 ^ k * 2 ^ 12 := by
    rw [Nat.pow_add]
    ring
  rw [h, page_size_eq_pow, Nat.mul_div_cancel _ (by norm_num : (0 : Nat) < 2 ^ 12)]

/-- Claim C2: deallocating a pair of order-`k` buddy blocks (`k < 11`,
both covered by frame metadata and marked `Allocated`, not `Reserved`),
when the merged block's own order-`(k+1)` buddy is not free, leaves the
order-`k` free list with its original length and pushes exactly the
merged block `min(A, buddy)` onto the order-`(k+1)` free list. -/
theorem C2_coalescing_law (st : PhysicalMemoryManager) (A k : Nat)
    (hk : k < MAX_ORDER)
    (halign : 2 ^ k * PAGE_SIZE ∣ A)
    {fA fB : Frame}
    (hfA : st.memory_map.frame (A / PAGE_SIZE) = some fA)
    (_hfAa : fA.allocated = true) (hfAr : fA.reserved = false)
    (hfB : st.memory_map.frame ((A ^^^ 2 ^ k * PAGE_SIZE) / PAGE_SIZE) = some fB)
    (hfBa : fB.allocated = true) (_hfBr : fB.reserved = false)
    (hstop : is_buddy_free st.memory_map
      (buddy_address (min A (A ^^^ 2 ^ k * PAGE_SIZE)) (k + 1)) (k + 1) = false) :
    (((st.deallocate A k).deallocate (A ^^^ 2 ^ k * PAGE_SIZE) k).free_lists k).length
        = (st.free_lists k).length ∧
    ((st.deallocate A k).deallocate (A ^^^ 2 ^ k * PAGE_SIZE) k).free_lists (k + 1)
        = min A (A ^^^ 2 ^ k * PAGE_SIZE) :: st.free_lists (k + 1) := by
  obtain ⟨m0, hAm⟩ := halign
  have hA : A = m0 * 2 ^ (k + 12) := by rw [hAm, page_pow]; ring
  have hB : A ^^^ 2 ^ k * PAGE_SIZE = (m0 ^^^ 1) * 2 ^ (k + 12) := by
    have hx := mul_pow_xor m0 1 (k + 12)
    rw [Nat.one_mul] at hx
    rw [hA, page_pow, hx]
  set B := A ^^^ 2 ^ k * PAGE_SIZE with hBdef
  -- the two buddies, their frame numbers and the next-order buddy
  have hdivA : A / PAGE_SIZE = m0 * 2 ^ k := by rw [hA, mul_pow_div_page]
  have hdivB : B / PAGE_SIZE = (m0 ^^^ 1) * 2 ^ k := by rw [hB, mul_pow_div_page]
  have hxone : m0 ^^^ 1 = if m0 % 2 = 0 then m0 + 1 else m0 - 1 := xor_one_eq m0
  have hm_ne : m0 ^^^ 1 ≠ m0 := by
    rw [hxone]
    by_cases h : m0 % 2 = 0
    · rw [if_pos h]; omega
    · rw [if_neg h]; omega
  have hfne : A / PAGE_SIZE ≠ B / PAGE_SIZE := by
    rw [hdivA, hdivB]
    intro hc
    exact hm_ne (Nat.eq_of_mul_eq_mul_right (Nat.two_pow_pos k) hc.symm)
  have hmin : min A B = (m0 - m0 % 2) * 2 ^ (k + 12) := by
    rw [hA, hB, hxone]
    by_cases h : m0 % 2 = 0
    · rw [if_pos h]
      rw [Nat.min_def, if_pos (Nat.mul_le_mul_right _ (by omega))]
      have h3 : m0 - m0 % 2 = m0 := by omega
      rw [h3]
    · rw [if_neg h]
      rw [Nat.min_def, if_neg (by
        intro hc
        have := Nat.le_of_mul_le_mul_right hc (Nat.two_pow_pos (k + 12))
        omega)]
      congr 1
      omega
  -- the order-(k+1) buddy of the merged block and its frame number
  have hC : buddy_address (min A B) (k + 1) =
      (2 * ((m0 - m0 % 2) / 2 ^^^ 1)) * 2 ^ (k + 12) := by
    rw [buddy_address, page_pow, hmin]
    set u := (m0 - m0 % 2) / 2 with hudef
    have hu : m0 - m0 % 2 = 2 * u := by omega
    have e1 : (m0 - m0 % 2) * 2 ^ (k + 12) = u * 2 ^ (k + 1 + 12) := by
      rw [hu, Nat.pow_add, Nat.pow_add, Nat.pow_add]
      ring
    have hx := mul_pow_xor u 1 (k + 1 + 12)
    rw [Nat.one_mul] at hx
    rw [e1, hx, Nat.pow_add, Nat.pow_add, Nat.pow_add]
    ring
  have hdivC : buddy_address (min A B) (k + 1) / PAGE_SIZE =
      (2 * ((m0 - m0 % 2) / 2 ^^^ 1)) * 2 ^ k := by
    rw [hC, mul_pow_div_page]
  have hCne : ∀ c, c = m0 ∨ c = m0 ^^^ 1 →
      (2 * ((m0 - m0 % 2) / 2 ^^^ 1)) * 2 ^ k ≠ c * 2 ^ k := by
    intro c hc hceq
    have heqc : 2 * ((m0 - m0 % 2) / 2 ^^^ 1) = c :=
      Nat.eq_of_mul_eq_mul_right (Nat.two_pow_pos k) hceq
    set q := (m0 - m0 % 2) / 2 with hq
    have hq1 : q ^^^ 1 = if q % 2 = 0 then q + 1 else q - 1 := xor_one_eq q
    by_cases hpar : m0 % 2 = 0
    · have hqm : m0 = 2 * q := by omega
      rcases hc with hc | hc
      · rw [hc] at heqc
        by_cases h2 : q % 2 = 0 <;> [rw [if_pos h2] at hq1; rw [if_neg h2] at hq1] <;> omega
      · rw [hc, hxone, if_pos hpar] at heqc
        by_cases h2 : q % 2 = 0 <;> [rw [if_pos h2] at hq1; rw [if_neg h2] at hq1] <;> omega
    · have hqm : m0 = 2 * q + 1 := by omega
      rcases hc with hc | hc
      · rw [hc] at heqc
        by_cases h2 : q % 2 = 0 <;> [rw [if_pos h2] at hq1; rw [if_neg h2] at hq1] <;> omega
      · rw [hc, hxone, if_neg hpar] at heqc
        by_cases h2 : q % 2 = 0 <;> [rw [if_pos h2] at hq1; rw [if_neg h2] at hq1] <;> omega
  -- symbolic execution of the first deallocate
  have hkle : k ≤ MAX_ORDER := by omega
  set st1 : PhysicalMemoryManager :=
    PhysicalMemoryManager.mk
      (st.memory_map.modify_frame (A / PAGE_SIZE)
        (fun fr => { fr with allocated := false, order := k }))
      st.free_lists with hst1
  set st2 := st1.add_to_free_list A k with hst2
  have hbuddyA : buddy_address A k = B := by rw [buddy_address, hBdef]
  have hfree1 : is_buddy_free st1.memory_map (buddy_address A k) k = false := by
    rw [hbuddyA, is_buddy_free]
    have hfr : st1.memory_map.frame (B / PAGE_SIZE) = some fB := by
      show (st.memory_map.modify_frame (A / PAGE_SIZE) _).frame (B / PAGE_SIZE) = _
      rw [MemoryMap.modify_frame_frame, if_neg (Ne.symm hfne), hfB]
    rw [hfr]
    dsimp only
    rw [hfBa]
    rfl
  have hstep1 : st.deallocate A k = st2 := by
    rw [@deallocate_eq st A k hkle]
    show coalesce st1 A k = st2
    rw [coalesce_step hk, hfree1, if_neg (by simp)]
  -- symbolic execution of the second deallocate
  set st3 : PhysicalMemoryManager :=
    PhysicalMemoryManager.mk
      (st2.memory_map.modify_frame (B / PAGE_SIZE)
        (fun fr => { fr with allocated := false, order := k }))
      st2.free_lists with hst3
  have hbuddyB : buddy_address B k = A := by
    rw [buddy_address, hBdef]
    exact xor_cancel_right A (2 ^ k * PAGE_SIZE)
  have hframeA3 : st3.memory_map.frame (A / PAGE_SIZE) =
      some { fA with allocated := false, order := k } := by
    show (st2.memory_map.modify_frame (B / PAGE_SIZE) _).frame (A / PAGE_SIZE) = _
    rw [MemoryMap.modify_frame_frame, if_neg hfne]
    show ((st.memory_map.modify_frame (A / PAGE_SIZE) _).modify_frame (A / PAGE_SIZE) _).frame
      (A / PAGE_SIZE) = _
    rw [MemoryMap.modify_frame_frame, if_pos rfl, MemoryMap.modify_frame_frame, if_pos rfl, hfA]
    rfl
  have hfree2 : is_buddy_free st3.memory_map (buddy_address B k) k = true := by
    rw [hbuddyB, is_buddy_free, hframeA3]
    dsimp only
    rw [hfAr]
    have h11 : decide (k ≤ MAX_ORDER) = true := by
      rw [decide_eq_true_eq]
      omega
    simp [h11]
  set st4 := st3.remove_from_free_list A k with hst4
  have hlists4 : ∀ o, st4.free_lists o =
      if o = k then removeFirst A (A :: st.free_lists k) else st.free_lists o := by
    intro o
    rw [hst4, remove_from_free_list_lists]
    by_cases h : o = k
    · rw [if_pos h, if_pos h]
      show removeFirst A (st2.free_lists k) = _
      rw [hst2, add_to_free_list_lists, if_pos rfl]
    · rw [if_neg h, if_neg h]
      show st2.free_lists o = _
      rw [hst2, add_to_free_list_lists, if_neg h]
  have hframeC4 : st4.memory_map.frame (buddy_address (min A B) (k + 1) / PAGE_SIZE) =
      st.memory_map.frame (buddy_address (min A B) (k + 1) / PAGE_SIZE) := by
    show st3.memory_map.frame _ = _
    show (st2.memory_map.modify_frame (B / PAGE_SIZE) _).frame _ = _
    rw [MemoryMap.modify_frame_frame, if_neg (by
      rw [hdivC, hdivB]
      exact hCne _ (Or.inr rfl))]
    show ((st.memory_map.modify_frame (A / PAGE_SIZE) _).modify_frame (A / PAGE_SIZE) _).frame _
      = _
    rw [MemoryMap.modify_frame_frame, MemoryMap.modify_frame_frame]
    rw [if_neg (by
      rw [hdivC, hdivA]
      exact hCne _ (Or.inl rfl))]
    rw [if_neg (by
      rw [hdivC, hdivA]
      exact hCne _ (Or.inl rfl))]
  have hstep2 : st2.deallocate B k = st4.add_to_free_list (min A B) (k + 1) := by
    rw [@deallocate_eq st2 B k hkle]
    show coalesce st3 B k = _
    rw [coalesce_step hk, hfree2, if_pos rfl, hbuddyB]
    have hminBA : min B A = min A B := Nat.min_comm B A
    rw [hminBA]
    show coalesce st4 (min A B) (k + 1) = _
    by_cases hk1 : k + 1 < MAX_ORDER
    · rw [coalesce_step hk1]
      rw [is_buddy_free_congr _ _ hframeC4, hstop, if_neg (by simp)]
    · exact coalesce_stop hk1
  rw [hstep1, hstep2]
  constructor
  · rw [add_to_free_list_lists, if_neg (by omega), hlists4, if_pos rfl]
    rw [removeFirst, if_pos rfl]
  · rw [add_to_free_list_lists, if_pos rfl, hlists4, if_neg (by omega)]

end PhysicalMemoryManager

/-- A concrete state for the C2 witness: four usable frames, frames 0
and 1 marked `Allocated` at order 0, all free lists empty. -/
def pmm_pair_example : PhysicalMemoryManager :=
  PhysicalMemoryManager.mk
    (((MemoryMap.from_boot_map [⟨0, 4096 * 4, true⟩]).modify_frame 0
        (fun fr => { fr with allocated := true, order := 0 })).modify_frame 1
      (fun fr => { fr with allocated := true, order := 0 }))
    (fun _ => [])

theorem C2_coalescing_law_witness :
    (((pmm_pair_example.deallocate 0 0).deallocate (0 ^^^ 2 ^ 0 * PAGE_SIZE) 0).free_lists 1)
        = min 0 (0 ^^^ 2 ^ 0 * PAGE_SIZE) :: pmm_pair_example.free_lists 1 :=
  (@PhysicalMemoryManager.C2_coalescing_law pmm_pair_example 0 0 (by decide)
    (dvd_zero _) ⟨true, false, 0⟩ ⟨true, false, 0⟩
    (by decide) (by decide) (by decide)
    (by decide) (by decide) (by decide)
    (by decide)).2


/-! ## C3: the free-list alignment invariant -/

/-- Every block on a free list the allocator uses (orders `0..=MAX_ORDER`)
is aligned to its block size `2^k * PAGE_SIZE`. -/
def AlignedInv (st : PhysicalMemoryManager) : Prop :=
  ∀ k, k ≤ MAX_ORDER → ∀ a ∈ st.free_lists k, 2 ^ k * PAGE_SIZE ∣ a

theorem removeFirst_subset {a x : Nat} :
    ∀ {l : List Nat}, x ∈ removeFirst a l → x ∈ l
  | y :: ys, h => by
    rw [removeFirst] at h
    by_cases hy : y = a
    · rw [if_pos hy] at h
      exact List.mem_cons_of_mem _ h
    · rw [if_neg hy] at h
      rcases List.mem_cons.mp h with h1 | h1
      · rw [h1]
        exact List.mem_cons_self _ _
      · exact List.mem_cons_of_mem _ (removeFirst_subset h1)

namespace PhysicalMemoryManager

theorem aligned_add_to_free_list {st : PhysicalMemoryManager} {a o : Nat}
    (hst : AlignedInv st) (ha : 2 ^ o * PAGE_SIZE ∣ a) :
    AlignedInv (st.add_to_free_list a o) := by
  intro k hk b hb
  rw [add_to_free_list_lists] at hb
  by_cases hko : k = o
  · subst hko
    rw [if_pos rfl] at hb
    rcases List.mem_cons.mp hb with h1 | h1
    · rw [h1]
      exact ha
    · exact hst k hk b h1
  · rw [if_neg hko] at hb
    exact hst k hk b hb

theorem aligned_remove_from_free_list (a o : Nat) {st : PhysicalMemoryManager}
    (hst : AlignedInv st) : AlignedInv (st.remove_from_free_list a o) := by
  intro k hk b hb
  rw [remove_from_free_list_lists] at hb
  by_cases hko : k = o
  · subst hko
    rw [if_pos rfl] at hb
    exact hst k hk b (removeFirst_subset hb)
  · rw [if_neg hko] at hb
    exact hst k hk b hb

/-- Coalescing two aligned buddies yields a block aligned one order
higher: the merged base `min addr (addr ^^^ 2^k * PAGE_SIZE)` clears
bit `k + 12`. -/
theorem buddy_min_aligned {addr k : Nat} (h : 2 ^ k * PAGE_SIZE ∣ addr) :
    2 ^ (k + 1) * PAGE_SIZE ∣ min addr (buddy_address addr k) := by
  obtain ⟨m, hm⟩ := h
  have haddr : addr = m * 2 ^ (k + 12) := by
    rw [hm, ← page_pow, Nat.mul_comm]
  have hb : buddy_address addr k = (m ^^^ 1) * 2 ^ (k + 12) := by
    rw [buddy_address, page_pow, haddr]
    have hx := mul_pow_xor m 1 (k + 12)
    rw [Nat.one_mul] at hx
    exact hx
  rw [hb, haddr, page_pow, xor_one_eq]
  by_cases hpar : m % 2 = 0
  · rw [if_pos hpar]
    have hmin : min (m * 2 ^ (k + 12)) ((m + 1) * 2 ^ (k + 12)) = m * 2 ^ (k + 12) :=
      Nat.min_eq_left (mul_le_mul_right' (Nat.le_succ m) _)
    rw [hmin]
    obtain ⟨q, hq⟩ : ∃ q, m = 2 * q := ⟨m / 2, by omega⟩
    refine ⟨q, ?_⟩
    rw [hq]
    ring
  · rw [if_neg hpar]
    have hm1 : m % 2 = 1 := by omega
    have hmin : min (m * 2 ^ (k + 12)) ((m - 1) * 2 ^ (k + 12)) = (m - 1) * 2 ^ (k + 12) :=
      Nat.min_eq_right (mul_le_mul_right' (Nat.sub_le m 1) _)
    rw [hmin]
    obtain ⟨q, hq⟩ : ∃ q, m = 2 * q + 1 := ⟨m / 2, by omega⟩
    refine ⟨q, ?_⟩
    rw [hq, Nat.add_sub_cancel]
    ring

theorem aligned_coalesce_fuel :
    ∀ (fuel : Nat) (st : PhysicalMemoryManager) (addr order : Nat), AlignedInv st →
      2 ^ order * PAGE_SIZE ∣ addr → AlignedInv (coalesce_fuel st addr order fuel) := by
  intro fuel
  induction fuel with
  | zero =>
    intro st addr order hst ha
    exact aligned_add_to_free_list hst ha
  | succ fuel ih =>
    intro st addr order hst ha
    have hunf : coalesce_fuel st addr order (fuel + 1) =
        if is_buddy_free st.memory_map (buddy_address addr order) order then
          coalesce_fuel (st.remove_from_free_list (buddy_address addr order) order)
            (min addr (buddy_address addr order)) (order + 1) fuel
        else st.add_to_free_list addr order := rfl
    rw [hunf]
    by_cases hbf : is_buddy_free st.memory_map (buddy_address addr order) order = true
    · rw [if_pos hbf]
      exact ih _ _ _ (aligned_remove_from_free_list _ _ hst) (buddy_min_aligned ha)
    · rw [if_neg hbf]
      exact aligned_add_to_free_list hst ha

theorem aligned_coalesce {st : PhysicalMemoryManager} {addr order : Nat}
    (hst : AlignedInv st) (ha : 2 ^ order * PAGE_SIZE ∣ addr) :
    AlignedInv (coalesce st addr order) :=
  aligned_coalesce_fuel (MAX_ORDER - order) st addr order hst ha

theorem aligned_deallocate {st : PhysicalMemoryManager} {base order : Nat}
    (hst : AlignedInv st) (hb : 2 ^ order * PAGE_SIZE ∣ base) :
    AlignedInv (st.deallocate base order) := by
  rw [deallocate]
  by_cases h : order > MAX_ORDER
  · rw [if_pos h]
    exact hst
  · rw [if_neg h]
    exact aligned_coalesce hst hb

theorem find_free_order_from_some {fl : Nat → List Nat} {k j : Nat}
    (h : find_free_order_from fl k = some j) : k ≤ j ∧ j ≤ MAX_ORDER := by
  rw [find_free_order_from] at h
  have h1 := List.mem_of_find?_eq_some h
  rw [List.mem_range'_1] at h1
  omega

theorem aligned_split_block {st : PhysicalMemoryManager} {addr t : Nat} (n : Nat)
    (hst : AlignedInv st) (ha : 2 ^ (t + n) * PAGE_SIZE ∣ addr) :
    AlignedInv (split_block st addr (t + n) t) := by
  intro k hk b hb
  rw [split_block_lists] at hb
  by_cases hcond : t ≤ k ∧ k < t + n
  · rw [if_pos hcond] at hb
    rcases List.mem_cons.mp hb with h1 | h1
    · rw [h1]
      exact dvd_add
        (dvd_trans (mul_dvd_mul_right (pow_dvd_pow 2 (by omega)) PAGE_SIZE) ha)
        (dvd_refl _)
    · exact hst k hk b h1
  · rw [if_neg hcond] at hb
    exact hst k hk b hb

/-- `allocate` preserves the alignment invariant and, on success, returns
a block aligned to the requested order's block size. -/
theorem aligned_allocate (st : PhysicalMemoryManager) (k : Nat) (hst : AlignedInv st) :
    AlignedInv (st.allocate k).2 ∧
      ∀ a, (st.allocate k).1 = Except.ok a → 2 ^ k * PAGE_SIZE ∣ a := by
  by_cases hk : k > MAX_ORDER
  · have halloc : st.allocate k = (.error .orderTooLarge, st) := by
      rw [allocate, if_pos hk]
    rw [halloc]
    exact ⟨hst, fun a ha => by simp at ha⟩
  · cases hfind : find_free_order_from st.free_lists k with
    | none =>
      have halloc : st.allocate k = (.error .outOfMemory, st) := by
        rw [allocate, if_neg hk, hfind]
      rw [halloc]
      exact ⟨hst, fun a ha => by simp at ha⟩
    | some j =>
      obtain ⟨hkj, hjM⟩ := find_free_order_from_some hfind
      cases hfl : st.free_lists j with
      | nil =>
        have halloc : st.allocate k = (.error .outOfMemory, st) := by
          rw [allocate, if_neg hk, hfind]
          dsimp only
          rw [hfl]
        rw [halloc]
        exact ⟨hst, fun a ha => by simp at ha⟩
      | cons addr rest =>
        have halloc : st.allocate k =
            (.ok addr,
              { memory_map :=
                  (split_block { st with free_lists := setList st.free_lists j rest }
                    addr j k).memory_map.modify_frame
                    (addr / PAGE_SIZE) (fun fr => { fr with allocated := true, order := k }),
                free_lists :=
                  (split_block { st with free_lists := setList st.free_lists j rest }
                    addr j k).free_lists }) := by
          rw [allocate, if_neg hk, hfind]
          dsimp only
          rw [hfl]
        have haddrj : 2 ^ j * PAGE_SIZE ∣ addr := by
          refine hst j hjM addr ?_
          rw [hfl]
          exact List.mem_cons_self _ _
        have haddrk : 2 ^ k * PAGE_SIZE ∣ addr :=
          dvd_trans (mul_dvd_mul_right (pow_dvd_pow 2 hkj) PAGE_SIZE) haddrj
        set st1 : PhysicalMemoryManager := { st with free_lists := setList st.free_lists j rest }
          with hst1def
        have hst1 : AlignedInv st1 := by
          intro k2 hk2 a hain
          have hl : st1.free_lists k2 = if k2 = j then rest else st.free_lists k2 := rfl
          rw [hl] at hain
          by_cases hkj2 : k2 = j
          · rw [if_pos hkj2] at hain
            refine hst k2 hk2 a ?_
            rw [hkj2, hfl]
            exact List.mem_cons_of_mem _ hain
          · rw [if_neg hkj2] at hain
            exact hst k2 hk2 a hain
        have hjk : k + (j - k) = j := by omega
        have hst2 : AlignedInv (split_block st1 addr j k) := by
          rw [← hjk]
          refine aligned_split_block (j - k) hst1 ?_
          rw [hjk]
          exact haddrj
        constructor
        · rw [halloc]
          exact hst2
        · intro a ha
          rw [halloc] at ha
          have haa : addr = a := by simpa using ha
          rw [← haa]
          exact haddrk

end PhysicalMemoryManager

/-- One buddy-allocator call on a `PhysicalMemoryManager`.  Deallocation
carries the amended precondition: the freed base is aligned to the block
size of the order it is freed at (which holds in particular for any block
previously returned by `allocate`/`allocate_aligned` at that order, by
`aligned_allocate`). -/
inductive PMMStep : PhysicalMemoryManager → PhysicalMemoryManager → Prop where
  | alloc (st : PhysicalMemoryManager) (k : Nat) : PMMStep st (st.allocate k).2
  | alloc_aligned (st : PhysicalMemoryManager) (k a : Nat) :
      PMMStep st (st.allocate_aligned k a).2
  | dealloc (st : PhysicalMemoryManager) (base k : Nat)
      (h : 2 ^ k * PAGE_SIZE ∣ base) : PMMStep st (st.deallocate base k)

/-- Reachability by a sequence of buddy-allocator calls. -/
inductive PMMReach : PhysicalMemoryManager → PhysicalMemoryManager → Prop where
  | refl (st : PhysicalMemoryManager) : PMMReach st st
  | tail {st1 st2 st3 : PhysicalMemoryManager} :
      PMMReach st1 st2 → PMMStep st2 st3 → PMMReach st1 st3

namespace PhysicalMemoryManager

/-- The deallocation loop of `allocate_aligned` (and of the seeding
drains): folding aligned single-order deallocations over a run of orders
below `align_order` preserves the invariant, as long as the block base is
aligned at `align_order`. -/
theorem aligned_drain_fold {addr align_order : Nat}
    (haddr : 2 ^ align_order * PAGE_SIZE ∣ addr) :
    ∀ (n so : Nat) (st : PhysicalMemoryManager), so + n ≤ align_order → AlignedInv st →
      AlignedInv ((List.range' so n).foldl
        (fun s o => s.deallocate (addr + 2 ^ o * PAGE_SIZE) o) st) := by
  intro n
  induction n with
  | zero =>
    intro so st _ hst
    exact hst
  | succ n ih =>
    intro so st hle hst
    rw [List.range'_succ, List.foldl_cons]
    refine ih (so + 1) _ (by omega) ?_
    refine aligned_deallocate hst ?_
    exact dvd_add
      (dvd_trans (mul_dvd_mul_right (pow_dvd_pow 2 (by omega)) PAGE_SIZE) haddr)
      (dvd_refl _)

/-- `allocate_aligned` preserves the alignment invariant and, on success,
returns a block aligned to the requested order's block size. -/
theorem aligned_allocate_aligned (st : PhysicalMemoryManager) (k a : Nat)
    (hst : AlignedInv st) :
    AlignedInv (st.allocate_aligned k a).2 ∧
      ∀ addr, (st.allocate_aligned k a).1 = Except.ok addr → 2 ^ k * PAGE_SIZE ∣ addr := by
  rw [allocate_aligned]
  by_cases h1 : k > MAX_ORDER
  · rw [if_pos h1]
    exact ⟨hst, fun addr ha => by simp at ha⟩
  · rw [if_neg h1]
    by_cases h2 : a < k
    · rw [if_pos h2]
      exact ⟨hst, fun addr ha => by simp at ha⟩
    · rw [if_neg h2]
      obtain ⟨hinv1, hok⟩ := aligned_allocate st a hst
      cases halloc : st.allocate a with
      | mk res st1 =>
        cases res with
        | error e =>
          dsimp only
          rw [halloc] at hinv1
          exact ⟨hinv1, fun addr ha => by simp at ha⟩
        | ok addr =>
          dsimp only
          have hin1 : AlignedInv st1 := by
            rw [halloc] at hinv1
            exact hinv1
          have haddra : 2 ^ a * PAGE_SIZE ∣ addr := hok addr (by rw [halloc])
          have haddrk : 2 ^ k * PAGE_SIZE ∣ addr :=
            dvd_trans (mul_dvd_mul_right (pow_dvd_pow 2 (by omega)) PAGE_SIZE) haddra
          by_cases h3 : a > k
          · rw [if_pos h3]
            refine ⟨?_, fun addr2 ha => by rw [← show addr = addr2 by simpa using ha]; exact haddrk⟩
            exact aligned_drain_fold haddra (a - k) k st1 (by omega) hin1
          · rw [if_neg h3]
            exact ⟨hin1, fun addr2 ha => by rw [← show addr = addr2 by simpa using ha]; exact haddrk⟩

end PhysicalMemoryManager

/-- Each buddy-allocator call preserves the alignment invariant. -/
theorem aligned_step {st1 st2 : PhysicalMemoryManager} (h : PMMStep st1 st2)
    (hst : AlignedInv st1) : AlignedInv st2 := by
  cases h with
  | alloc k => exact (PhysicalMemoryManager.aligned_allocate st1 k hst).1
  | alloc_aligned k a => exact (PhysicalMemoryManager.aligned_allocate_aligned st1 k a hst).1
  | dealloc base k hal => exact PhysicalMemoryManager.aligned_deallocate hst hal

theorem aligned_reach {st1 st2 : PhysicalMemoryManager} (h : PMMReach st1 st2)
    (hst : AlignedInv st1) : AlignedInv st2 := by
  induction h with
  | refl => exact hst
  | tail _ hstep ih => exact aligned_step hstep ih

theorem aligned_drain_order_fuel {endp order : Nat} :
    ∀ (fuel : Nat) (st : PhysicalMemoryManager) (addr : Nat), AlignedInv st →
      2 ^ order * PAGE_SIZE ∣ addr →
      AlignedInv (drain_order_fuel st addr endp order fuel).1 ∧
        2 ^ order * PAGE_SIZE ∣ (drain_order_fuel st addr endp order fuel).2 := by
  intro fuel
  induction fuel with
  | zero =>
    intro st addr hst ha
    exact ⟨hst, ha⟩
  | succ fuel ih =>
    intro st addr hst ha
    have hunf : drain_order_fuel st addr endp order (fuel + 1) =
        if addr + 2 ^ order * PAGE_SIZE ≤ endp then
          drain_order_fuel (st.deallocate addr order) (addr + 2 ^ order * PAGE_SIZE)
            endp order fuel
        else (st, addr) := rfl
    rw [hunf]
    by_cases hle : addr + 2 ^ order * PAGE_SIZE ≤ endp
    · rw [if_pos hle]
      exact ih _ _ (PhysicalMemoryManager.aligned_deallocate hst ha) (dvd_add ha (dvd_refl _))
    · rw [if_neg hle]
      exact ⟨hst, ha⟩

theorem aligned_drain_order {endp order : Nat} (st : PhysicalMemoryManager) (addr : Nat)
    (hst : AlignedInv st) (ha : 2 ^ order * PAGE_SIZE ∣ addr) :
    AlignedInv (drain_order st addr endp order).1 ∧
      2 ^ order * PAGE_SIZE ∣ (drain_order st addr endp order).2 :=
  aligned_drain_order_fuel (endp + 1 - addr) st addr hst ha

theorem aligned_drain_down {endp : Nat} :
    ∀ (o : Nat) (st : PhysicalMemoryManager) (addr : Nat), AlignedInv st →
      2 ^ o * PAGE_SIZE ∣ addr → AlignedInv (drain_down st addr endp o) := by
  intro o
  induction o with
  | zero =>
    intro st addr hst _
    exact hst
  | succ o ih =>
    intro st addr hst ha
    have hunf : drain_down st addr endp (o + 1) =
        drain_down (drain_order st addr endp o).1 (drain_order st addr endp o).2 endp o := rfl
    rw [hunf]
    have ha' : 2 ^ o * PAGE_SIZE ∣ addr :=
      dvd_trans (mul_dvd_mul_right (pow_dvd_pow 2 (Nat.le_succ o)) PAGE_SIZE) ha
    obtain ⟨hs1, hs2⟩ := aligned_drain_order st addr hst ha'
    exact ih _ _ hs1 hs2

/-- Seeding one region preserves the invariant when the page-aligned-up
base is additionally aligned to the largest block size
`2^MAX_ORDER * PAGE_SIZE`. -/
theorem aligned_seed_region {st : PhysicalMemoryManager} {base size : Nat}
    (hst : AlignedInv st) (hb : 2 ^ MAX_ORDER * PAGE_SIZE ∣ page_align_up base) :
    AlignedInv (seed_region st base size) := by
  show AlignedInv (drain_down (drain_order st (page_align_up base) (base + size) MAX_ORDER).1
    (drain_order st (page_align_up base) (base + size) MAX_ORDER).2 (base + size) MAX_ORDER)
  obtain ⟨hs1, hs2⟩ := aligned_drain_order st (page_align_up base) hst hb
  exact aligned_drain_down MAX_ORDER _ _ hs1 hs2

theorem aligned_seed_fold :
    ∀ (l : List BootMemoryRegion) (st : PhysicalMemoryManager), AlignedInv st →
      (∀ r ∈ l, r.usable = true → 2 ^ MAX_ORDER * PAGE_SIZE ∣ page_align_up r.base) →
      AlignedInv (l.foldl
        (fun st r => if r.usable then seed_region st r.base r.size else st) st) := by
  intro l
  induction l with
  | nil =>
    intro st hst _
    exact hst
  | cons r rs ih =>
    intro st hst hbm
    rw [List.foldl_cons]
    refine ih _ ?_ (fun r2 h2 => hbm r2 (List.mem_cons_of_mem _ h2))
    by_cases hu : r.usable = true
    · rw [if_pos hu]
      exact aligned_seed_region hst (hbm r (List.mem_cons_self _ _) hu)
    · rw [if_neg hu]
      exact hst

theorem aligned_init_pmm (bm : List BootMemoryRegion)
    (hbm : ∀ r ∈ bm, r.usable = true → 2 ^ MAX_ORDER * PAGE_SIZE ∣ page_align_up r.base) :
    AlignedInv (init_pmm bm) := by
  rw [init_pmm]
  refine aligned_seed_fold bm _ ?_ hbm
  intro k _ a ha
  cases ha

/-- Counterexample to claim C3 as stated: `init_pmm` only aligns each
usable region's base up to `PAGE_SIZE`, not to the block size being
seeded, so seeding the region `[0x1000, 0x1000 + 2^23)` deallocates the
order-11 block at address `0x1000`, which is not aligned to
`2^11 * PAGE_SIZE = 2^23` bytes. -/
theorem C3_counterexample :
    (init_pmm [⟨4096, 2 ^ 23, true⟩]).free_lists MAX_ORDER = [4096] ∧
      ¬ 2 ^ MAX_ORDER * PAGE_SIZE ∣ 4096 := by
  constructor
  · decide
  · decide

/-- Claim C3 (corrected): the spec's seeding procedure only guarantees the
free-list alignment invariant when, in addition, every usable boot
region's page-aligned-up base is aligned to the largest block size
`2^MAX_ORDER * PAGE_SIZE` (the code never block-aligns the seeding
cursor; see `C3_counterexample`).  Under that premise, after `init_pmm`
and any sequence of `allocate`, `allocate_aligned`, and aligned
`deallocate` calls, every block on free list `k` (for `k ≤ MAX_ORDER`)
is aligned to `2^k * PAGE_SIZE`; moreover successful `allocate(k)` and
`allocate_aligned(k, a)` calls from any state satisfying the invariant
return addresses aligned to `2^k * PAGE_SIZE`, so deallocating a block
previously returned at the same order is an aligned deallocation. -/
theorem C3_freelist_alignment :
    (∀ (bm : List BootMemoryRegion),
      (∀ r ∈ bm, r.usable = true → 2 ^ MAX_ORDER * PAGE_SIZE ∣ page_align_up r.base) →
      ∀ st, PMMReach (init_pmm bm) st →
      ∀ k, k ≤ MAX_ORDER → ∀ a ∈ st.free_lists k, 2 ^ k * PAGE_SIZE ∣ a) ∧
    (∀ (st : PhysicalMemoryManager) (k : Nat), AlignedInv st →
      ∀ a, (st.allocate k).1 = Except.ok a → 2 ^ k * PAGE_SIZE ∣ a) ∧
    (∀ (st : PhysicalMemoryManager) (k al : Nat), AlignedInv st →
      ∀ a, (st.allocate_aligned k al).1 = Except.ok a → 2 ^ k * PAGE_SIZE ∣ a) := by
  refine ⟨?_, ?_, ?_⟩
  · intro bm hbm st hreach
    exact aligned_reach hreach (aligned_init_pmm bm hbm)
  · intro st k hst a ha
    exact (PhysicalMemoryManager.aligned_allocate st k hst).2 a ha
  · intro st k al hst a ha
    exact (PhysicalMemoryManager.aligned_allocate_aligned st k al hst).2 a ha

theorem C3_freelist_alignment_witness :
    0 ∈ (init_pmm [⟨0, 2 ^ 23, true⟩]).free_lists MAX_ORDER ∧
      2 ^ MAX_ORDER * PAGE_SIZE ∣ 0 :=
  ⟨by decide,
    C3_freelist_alignment.1 [⟨0, 2 ^ 23, true⟩] (by decide) _ (PMMReach.refl _)
      MAX_ORDER (Nat.le_refl _) 0 (by decide)⟩

/-! ## C7: first-fit block allocation -/

theorem two_mul_and_two_mul_add_one (a b : Nat) : (2 * a) &&& (2 * b + 1) = 2 * (a &&& b) := by
  apply Nat.eq_of_testBit_eq
  intro i
  cases i with
  | zero =>
    rw [Nat.testBit_and]
    simp only [Nat.testBit_zero]
    simp [Nat.mul_mod_right, Nat.mul_add_mod]
  | succ j =>
    rw [Nat.testBit_and, Nat.testBit_add_one, Nat.testBit_add_one, Nat.testBit_add_one]
    have h1 : 2 * a / 2 = a := by omega
    have h2 : (2 * b + 1) / 2 = b := by omega
    have h3 : 2 * (a &&& b) / 2 = a &&& b := by omega
    rw [h1, h2, h3, Nat.testBit_and]

theorem two_mul_add_one_and_two_mul (a b : Nat) : (2 * a + 1) &&& (2 * b) = 2 * (a &&& b) := by
  apply Nat.eq_of_testBit_eq
  intro i
  cases i with
  | zero =>
    rw [Nat.testBit_and]
    simp only [Nat.testBit_zero]
    simp [Nat.mul_mod_right, Nat.mul_add_mod]
  | succ j =>
    rw [Nat.testBit_and, Nat.testBit_add_one, Nat.testBit_add_one, Nat.testBit_add_one]
    have h1 : (2 * a + 1) / 2 = a := by omega
    have h2 : 2 * b / 2 = b := by omega
    have h3 : 2 * (a &&& b) / 2 = a &&& b := by omega
    rw [h1, h2, h3, Nat.testBit_and]

/-- The power-of-two test of `allocate_raw`: a nonzero number with
`n & (n - 1) == 0` is a power of two. -/
theorem pow_of_and_pred : ∀ n, n ≠ 0 → n &&& (n - 1) = 0 → ∃ k, n = 2 ^ k := by
  intro n
  induction n using Nat.strong_induction_on with
  | _ n ih =>
    intro hn h
    rcases Nat.even_or_odd n with ⟨m, hm⟩ | ⟨m, hm⟩
    · have hm2 : n = 2 * m := by omega
      have hmpos : m ≠ 0 := by omega
      have hsub : n - 1 = 2 * (m - 1) + 1 := by omega
      rw [hsub, hm2, two_mul_and_two_mul_add_one] at h
      have h2 : m &&& (m - 1) = 0 := by omega
      obtain ⟨k, hk⟩ := ih m (by omega) hmpos h2
      refine ⟨k + 1, ?_⟩
      rw [hm2, hk]
      ring
    · have hm2 : n = 2 * m + 1 := by omega
      by_cases hm0 : m = 0
      · exact ⟨0, by omega⟩
      · have hsub : n - 1 = 2 * m := by omega
        rw [hsub, hm2, two_mul_add_one_and_two_mul, Nat.and_self] at h
        omega

theorem align_up_dvd (c a : Nat) : a ∣ align_up c a := by
  rw [align_up]
  exact dvd_mul_left a _

theorem le_align_up (c a : Nat) (ha : 0 < a) : c ≤ align_up c a := by
  have h := lt_div_succ_mul (c + a - 1) a ha
  rw [align_up]
  rw [Nat.add_mul, Nat.one_mul] at h
  set t := (c + a - 1) / a * a
  omega

/-- `align_up c a` is the least multiple of `a` that is at least `c`. -/
theorem align_up_le {c a x : Nat} (ha : 0 < a) (hd : a ∣ x) (hcx : c ≤ x) :
    align_up c a ≤ x := by
  obtain ⟨t, ht⟩ := hd
  subst ht
  rw [align_up]
  have h1 : (c + a - 1) / a ≤ t := by
    by_contra hlt
    push_neg at hlt
    have h2 : (t + 1) * a ≤ c + a - 1 := (Nat.le_div_iff_mul_le ha).mp hlt
    rw [Nat.add_mul, Nat.one_mul] at h2
    rw [Nat.mul_comm] at hcx
    set u := t * a
    omega
  calc (c + a - 1) / a * a ≤ t * a := mul_le_mul_right' h1 a
    _ = a * t := Nat.mul_comm t a

theorem find_overlap_some {rsv : List MemoryRegion} {cand s : MemoryRegion}
    (h : find_overlap rsv cand = some s) : s ∈ rsv ∧ cand.overlaps s := by
  rw [find_overlap] at h
  have h1 := List.find?_some h
  have h2 : cand.overlaps s := of_decide_eq_true h1
  exact ⟨List.mem_of_find?_eq_some h, h2⟩

theorem find_overlap_none {rsv : List MemoryRegion} {cand : MemoryRegion}
    (h : find_overlap rsv cand = none) : ∀ s ∈ rsv, ¬ cand.overlaps s := by
  rw [find_overlap] at h
  intro s hs hov
  have h2 := List.find?_eq_none.mp h s hs
  exact h2 (decide_eq_true hov)

/-- The cursor loop of `allocate_raw` within one region returns the least
`align`-aligned candidate at or above the cursor that fits below `endp`
and misses every reserved region — or `none` exactly when no such
candidate exists.  (Both cursor bumps skip only invalid candidates: the
align-up bump skips unaligned addresses, and the jump past an overlapping
reserved region skips only candidates still overlapping it.) -/
theorem scan_region_fuel_spec (rsv : List MemoryRegion) (asize align : Nat)
    (hal : 0 < align) (endp : Nat) :
    ∀ (fuel : Nat) (current : Nat), endp + 1 ≤ current + fuel →
      (∀ p, scan_region_fuel rsv asize align endp fuel current = some p →
        align ∣ p ∧ current ≤ p ∧ p + asize ≤ endp ∧
          (∀ s ∈ rsv, ¬ MemoryRegion.overlaps { base := p, size := asize } s) ∧
          ∀ c, align ∣ c → current ≤ c → c + asize ≤ endp →
            (∀ s ∈ rsv, ¬ MemoryRegion.overlaps { base := c, size := asize } s) → p ≤ c) ∧
      (scan_region_fuel rsv asize align endp fuel current = none →
        ∀ c, align ∣ c → current ≤ c → c + asize ≤ endp →
          (∀ s ∈ rsv, ¬ MemoryRegion.overlaps { base := c, size := asize } s) → False) := by
  intro fuel
  induction fuel with
  | zero =>
    intro current hfuel
    constructor
    · intro p hp
      exact Option.noConfusion hp
    · intro _ c _ hcc hce _
      omega
  | succ fuel ih =>
    intro current hfuel
    have hunf : scan_region_fuel rsv asize align endp (fuel + 1) current =
        if current + asize ≤ endp then
          if align_up current align + asize > endp then none
          else
            match find_overlap rsv { base := align_up current align, size := asize } with
            | some s => scan_region_fuel rsv asize align endp fuel s.end_addr
            | none => some (align_up current align)
        else none := rfl
    by_cases hguard : current + asize ≤ endp
    · rw [if_pos hguard] at hunf
      by_cases hbreak : align_up current align + asize > endp
      · rw [if_pos hbreak] at hunf
        constructor
        · intro p hp
          rw [hunf] at hp
          exact Option.noConfusion hp
        · intro _ c hdc hcc hce _
          have h1 : align_up current align ≤ c := align_up_le hal hdc hcc
          omega
      · rw [if_neg hbreak] at hunf
        cases hfind : find_overlap rsv { base := align_up current align, size := asize } with
        | some s =>
          rw [hfind] at hunf
          obtain ⟨hsmem, hsov⟩ := find_overlap_some hfind
          have hov1 : align_up current align < s.end_addr := hsov.1
          have hov2 : s.base < align_up current align + asize := hsov.2
          have hcur : current ≤ align_up current align := le_align_up current align hal
          have hstep : ∀ c, align ∣ c → current ≤ c → c + asize ≤ endp →
              (∀ s2 ∈ rsv, ¬ MemoryRegion.overlaps { base := c, size := asize } s2) →
              s.end_addr ≤ c := by
            intro c hdc hcc hce hnov
            by_contra hlt
            push_neg at hlt
            have hac : align_up current align ≤ c := align_up_le hal hdc hcc
            refine hnov s hsmem ⟨hlt, ?_⟩
            show s.base < c + asize
            omega
          have hfu2 : endp + 1 ≤ s.end_addr + fuel := by omega
          obtain ⟨ihs, ihn⟩ := ih s.end_addr hfu2
          constructor
          · intro p hp
            rw [hunf] at hp
            obtain ⟨g1, g2, g3, g4, g5⟩ := ihs p hp
            refine ⟨g1, by omega, g3, g4, ?_⟩
            intro c hdc hcc hce hnov
            exact g5 c hdc (hstep c hdc hcc hce hnov) hce hnov
          · intro hnone c hdc hcc hce hnov
            rw [hunf] at hnone
            exact ihn hnone c hdc (hstep c hdc hcc hce hnov) hce hnov
        | none =>
          rw [hfind] at hunf
          have hnov0 := find_overlap_none hfind
          constructor
          · intro p hp
            rw [hunf] at hp
            obtain rfl : align_up current align = p := Option.some.inj hp
            refine ⟨align_up_dvd current align, le_align_up current align hal,
              by omega, hnov0, ?_⟩
            intro c hdc hcc _ _
            exact align_up_le hal hdc hcc
          · intro hnone
            rw [hunf] at hnone
            exact Option.noConfusion hnone
    · rw [if_neg hguard] at hunf
      constructor
      · intro p hp
        rw [hunf] at hp
        exact Option.noConfusion hp
      · intro _ c _ hcc hce _
        omega

theorem scan_region_spec (rsv : List MemoryRegion) (asize align : Nat)
    (hal : 0 < align) (base endp : Nat) :
    (∀ p, scan_region rsv asize align base endp = some p →
      align ∣ p ∧ base ≤ p ∧ p + asize ≤ endp ∧
        (∀ s ∈ rsv, ¬ MemoryRegion.overlaps { base := p, size := asize } s) ∧
        ∀ c, align ∣ c → base ≤ c → c + asize ≤ endp →
          (∀ s ∈ rsv, ¬ MemoryRegion.overlaps { base := c, size := asize } s) → p ≤ c) ∧
    (scan_region rsv asize align base endp = none →
      ∀ c, align ∣ c → base ≤ c → c + asize ≤ endp →
        (∀ s ∈ rsv, ¬ MemoryRegion.overlaps { base := c, size := asize } s) → False) :=
  scan_region_fuel_spec rsv asize align hal endp (endp + 1 - base) base (by omega)

/-- The specification-side notion of a valid allocation span: an
`align`-aligned physical base whose `asize`-byte span lies inside the
memory region `m` and misses every reserved region. -/
def region_candidate_ok (rsv : List MemoryRegion) (asize align : Nat)
    (m : MemoryRegion) (c : Nat) : Prop :=
  align ∣ c ∧ m.base ≤ c ∧ c + asize ≤ m.end_addr ∧
    ∀ s ∈ rsv, ¬ MemoryRegion.overlaps { base := c, size := asize } s

theorem scan_memory_spec (rsv : List MemoryRegion) (asize align : Nat) (hal : 0 < align) :
    ∀ mems : List MemoryRegion,
      (∀ p, scan_memory mems rsv asize align = some p →
        ∃ l1 m l2, mems = l1 ++ m :: l2 ∧
          region_candidate_ok rsv asize align m p ∧
          (∀ c, region_candidate_ok rsv asize align m c → p ≤ c) ∧
          (∀ m2 ∈ l1, ∀ c, ¬ region_candidate_ok rsv asize align m2 c)) ∧
      (scan_memory mems rsv asize align = none →
        ∀ m ∈ mems, ∀ c, ¬ region_candidate_ok rsv asize align m c) := by
  intro mems
  induction mems with
  | nil =>
    constructor
    · intro p hp
      exact Option.noConfusion hp
    · intro _ m hm
      exact absurd hm (List.not_mem_nil m)
  | cons m rest ih =>
    have hunf : scan_memory (m :: rest) rsv asize align =
        (match scan_region rsv asize align m.base m.end_addr with
          | some p => some p
          | none => scan_memory rest rsv asize align) := rfl
    cases hscan : scan_region rsv asize align m.base m.end_addr with
    | some p0 =>
      have hsome : scan_memory (m :: rest) rsv asize align = some p0 := by
        rw [hunf, hscan]
      obtain ⟨hs1, _⟩ := scan_region_spec rsv asize align hal m.base m.end_addr
      obtain ⟨g1, g2, g3, g4, g5⟩ := hs1 p0 hscan
      constructor
      · intro p hp
        rw [hsome] at hp
        obtain rfl : p0 = p := Option.some.inj hp
        refine ⟨[], m, rest, rfl, ⟨g1, g2, g3, g4⟩, ?_, ?_⟩
        · intro c hc
          exact g5 c hc.1 hc.2.1 hc.2.2.1 hc.2.2.2
        · intro m2 hm2
          exact absurd hm2 (List.not_mem_nil m2)
      · intro hnone
        rw [hsome] at hnone
        exact Option.noConfusion hnone
    | none =>
      have hrec : scan_memory (m :: rest) rsv asize align =
          scan_memory rest rsv asize align := by
        rw [hunf, hscan]
      have hnoc : ∀ c, ¬ region_candidate_ok rsv asize align m c := by
        intro c hc
        exact (scan_region_spec rsv asize align hal m.base m.end_addr).2 hscan c
          hc.1 hc.2.1 hc.2.2.1 hc.2.2.2
      constructor
      · intro p hp
        rw [hrec] at hp
        obtain ⟨l1, m1, l2, hsplit, h2, h3, h4⟩ := ih.1 p hp
        refine ⟨m :: l1, m1, l2, by rw [hsplit]; rfl, h2, h3, ?_⟩
        intro m2 hm2 c
        rcases List.mem_cons.mp hm2 with h | h
        · rw [h]
          exact hnoc c
        · exact h4 m2 h c
      · intro hnone
        rw [hrec] at hnone
        intro m2 hm2 c
        rcases List.mem_cons.mp hm2 with h | h
        · rw [h]
          exact hnoc c
        · exact ih.2 hnone m2 h c

/-- Claim C7: for `size > 0`, `allocate_raw(size, align)` fails with
`InvalidAlignment` (state unchanged) when `align` is not a power of two;
and on success it returns the direct-mapped virtual address of an
`align`-aligned physical span of `⌈size / PAGE_SIZE⌉ * PAGE_SIZE` bytes
lying inside a single region of `memory[]`, missing every pre-call
`reserved[]` region, first-fit minimal (no valid span in any earlier
`memory[]` region, none lower in its own region), and the chosen span is
merged into `reserved[]`. -/
theorem C7_allocate_raw_first_fit (off : Nat) (st : BlockAllocator) (size align : Nat)
    (hsize : 0 < size) :
    ((¬ ∃ k, align = 2 ^ k) →
      st.allocate_raw off size align = (.error .invalidAlignment, st)) ∧
    (∀ v, (st.allocate_raw off size align).1 = .ok v →
      ∃ p rsv2 l1 m l2,
        v = direct_mapped off p ∧
        st.memory.regions = l1 ++ m :: l2 ∧
        region_candidate_ok st.reserved.regions (align_up size PAGE_SIZE) align m p ∧
        (∀ c, region_candidate_ok st.reserved.regions (align_up size PAGE_SIZE) align m c →
          p ≤ c) ∧
        (∀ m2 ∈ l1, ∀ c,
          ¬ region_candidate_ok st.reserved.regions (align_up size PAGE_SIZE) align m2 c) ∧
        st.reserved.add { base := p, size := align_up size PAGE_SIZE } = .ok rsv2 ∧
        (st.allocate_raw off size align).2 =
          { memory := st.memory, reserved := rsv2 }) := by
  have h0 : ¬ size = 0 := by omega
  constructor
  · intro hnp
    have hguard : align = 0 ∨ align &&& (align - 1) ≠ 0 := by
      by_cases ha0 : align = 0
      · exact Or.inl ha0
      · refine Or.inr ?_
        intro hand
        exact hnp (pow_of_and_pred align ha0 hand)
    rw [BlockAllocator.allocate_raw, if_neg h0, if_pos hguard]
  · intro v hv
    by_cases hg : align = 0 ∨ align &&& (align - 1) ≠ 0
    · rw [BlockAllocator.allocate_raw, if_neg h0, if_pos hg] at hv
      simp at hv
    · have hal : 0 < align := by
        rcases Nat.eq_zero_or_pos align with h | h
        · exact absurd (Or.inl h) hg
        · exact h
      cases hscan : scan_memory st.memory.regions st.reserved.regions
          (align_up size PAGE_SIZE) align with
      | none =>
        rw [BlockAllocator.allocate_raw, if_neg h0, if_neg hg] at hv
        dsimp only at hv
        rw [hscan] at hv
        simp at hv
      | some p =>
        cases hadd : st.reserved.add { base := p, size := align_up size PAGE_SIZE } with
        | error e =>
          rw [BlockAllocator.allocate_raw, if_neg h0, if_neg hg] at hv
          dsimp only at hv
          rw [hscan] at hv
          dsimp only at hv
          rw [hadd] at hv
          simp at hv
        | ok rsv2 =>
          have hres : st.allocate_raw off size align =
              (.ok (direct_mapped off p), { memory := st.memory, reserved := rsv2 }) := by
            rw [BlockAllocator.allocate_raw, if_neg h0, if_neg hg]
            dsimp only
            rw [hscan]
            dsimp only
            rw [hadd]
          rw [hres] at hv
          have hvp : direct_mapped off p = v := by simpa using hv
          obtain ⟨l1, m, l2, hsplit, hok2, hmin, hearlier⟩ :=
            (scan_memory_spec st.reserved.regions (align_up size PAGE_SIZE) align hal
              st.memory.regions).1 p hscan
          exact ⟨p, rsv2, l1, m, l2, hvp.symm, hsplit, hok2, hmin, hearlier, hadd,
            by rw [hres]⟩

theorem C7_allocate_raw_first_fit_witness :
    BlockAllocator.new.allocate_raw 0 4096 3 =
      (Except.error BlockAllocError.invalidAlignment, BlockAllocator.new) :=
  (C7_allocate_raw_first_fit 0 BlockAllocator.new 4096 3 (by decide)).1
    (by
      rintro ⟨k, hk⟩
      match k, hk with
      | 0, hk => exact absurd hk (by decide)
      | 1, hk => exact absurd hk (by decide)
      | k + 2, hk =>
        have h4 : 4 ≤ 2 ^ (k + 2) := by
          calc (4 : Nat) = 2 ^ 2 := rfl
            _ ≤ 2 ^ (k + 2) := Nat.pow_le_pow_right (by decide) (by omega)
        omega)

/-! ## C8: block-allocator conservation and coalescing -/

/-- `a` lies strictly before `b` with a gap: sorted by base, no overlap,
no adjacency. -/
def region_before (a b : MemoryRegion) : Prop := a.end_addr < b.base

instance : DecidableRel region_before := fun _ _ => Nat.decLt _ _

/-- The region-array invariant: entries sorted by base address, pairwise
non-overlapping and non-adjacent, all of positive size. -/
def SC (l : List MemoryRegion) : Prop :=
  List.Pairwise region_before l ∧ ∀ r ∈ l, 0 < r.size

instance (l : List MemoryRegion) : Decidable (SC l) := instDecidableAnd

/-- The post-state of the C8 counterexample: a reservation recorded with
no memory regions at all. -/
def c8_state : BlockAllocator :=
  { memory := ⟨[]⟩, reserved := ⟨[{ base := 0, size := 4096 }]⟩ }

/-- Counterexample to claim C8 as stated: `reserve` does not require the
reserved span to lie inside `memory[]`, and `available_memory` is the
saturating difference `total - reserved`, so after the successful
operation `reserve(0, 4096)` on a fresh allocator we get
`available + reserved = 0 + 4096 ≠ 0 = total`. -/
theorem C8_counterexample :
    BlockAllocator.new.reserve 0 4096 = .ok c8_state ∧
      c8_state.available_memory + c8_state.reserved_memory ≠ c8_state.total_memory := by
  constructor
  · decide
  · decide

theorem listInsertIdx_eq (a : α) :
    ∀ (i : Nat) (l : List α), i ≤ l.length →
      listInsertIdx a i l = l.take i ++ a :: l.drop i
  | 0, l, _ => rfl
  | n + 1, [], h => by simp at h
  | n + 1, x :: xs, h => by
    have ih := listInsertIdx_eq a n xs (by simpa using h)
    rw [listInsertIdx, ih]
    rfl

theorem merge_base (a b : MemoryRegion) : (a.merge b).base = min a.base b.base := by
  simp only [MemoryRegion.merge]
  split_ifs <;> omega

theorem merge_pos (a b : MemoryRegion) (ha : 0 < a.size) : 0 < (a.merge b).size := by
  simp only [MemoryRegion.merge, MemoryRegion.end_addr]
  split_ifs <;> omega

theorem get?_split :
    ∀ (l : List α) (n : Nat) (a : α), l.get? n = some a →
      l = l.take n ++ a :: l.drop (n + 1)
  | x :: xs, 0, a, h => by
    obtain rfl : x = a := by simpa using h
    rfl
  | x :: xs, n + 1, a, h => by
    have ih := get?_split xs n a (by simpa using h)
    show x :: xs = x :: (xs.take n ++ a :: xs.drop (n + 1))
    rw [← ih]
  | [], n, a, h => by
    simp at h

theorem eraseIdx_append :
    ∀ (A : List α) (ex : α) (B : List α), (A ++ ex :: B).eraseIdx A.length = A ++ B
  | [], ex, B => rfl
  | x :: A, ex, B => by
    show x :: (A ++ ex :: B).eraseIdx A.length = x :: (A ++ B)
    rw [eraseIdx_append A ex B]

theorem sc_insert_middle {pre post : List MemoryRegion} {M : MemoryRegion}
    (h1 : List.Pairwise region_before (pre ++ post))
    (h2 : ∀ x ∈ pre, region_before x M)
    (h3 : ∀ y ∈ post, region_before M y) :
    List.Pairwise region_before (pre ++ M :: post) := by
  obtain ⟨hp1, hp2, hcross⟩ := List.pairwise_append.mp h1
  refine List.pairwise_append.mpr ⟨hp1, ?_, ?_⟩
  · exact List.pairwise_cons.mpr ⟨h3, hp2⟩
  · intro a ha b hb
    rcases List.mem_cons.mp hb with h | h
    · rw [h]
      exact h2 a ha
    · exact hcross a ha b h

theorem sc_of_parts {pre post rs0 : List MemoryRegion} {M : MemoryRegion}
    (hsub : (pre ++ post).Sublist rs0) (hsc : SC rs0)
    (h2 : ∀ x ∈ pre, region_before x M)
    (h3 : ∀ y ∈ post, region_before M y)
    (hM : 0 < M.size) :
    SC (pre ++ M :: post) := by
  obtain ⟨hp, hpos⟩ := hsc
  have hps : List.Pairwise region_before (pre ++ post) := hp.sublist hsub
  constructor
  · exact sc_insert_middle hps h2 h3
  · intro r hr
    rcases List.mem_append.mp hr with h | h
    · exact hpos r (hsub.subset (List.mem_append_left _ h))
    · rcases List.mem_cons.mp h with h | h
      · rw [h]
        exact hM
      · exact hpos r (hsub.subset (List.mem_append_right _ h))

theorem before_head_all {x M : MemoryRegion} {lb : List MemoryRegion}
    (hbx : region_before M x) (hx : 0 < x.size)
    (hpair : ∀ y ∈ lb, region_before x y) :
    ∀ y ∈ x :: lb, region_before M y := by
  intro y hy
  rcases List.mem_cons.mp hy with h | h
  · rw [h]
    exact hbx
  · have h1 : x.end_addr < y.base := hpair y h
    have h5 : M.end_addr < x.base := hbx
    show M.end_addr < y.base
    have h3 : x.end_addr = x.base + x.size := rfl
    omega

/-- The scanning loop of `RegionArray::add` before any merge happens:
either every entry lies strictly before the new region (loop runs off the
end), or it stops at the first entry strictly after it, or it reaches the
first mergeable entry and continues in the merging phase. -/
theorem add_loop_phase1 :
    ∀ (l : List MemoryRegion) (M : MemoryRegion) (i : Nat),
      (add_loop M i none none l = (M, none, none, none) ∧ ∀ x ∈ l, region_before x M) ∨
      (∃ l1 x l2, l = l1 ++ x :: l2 ∧ (∀ r ∈ l1, region_before r M) ∧
        ((region_before M x ∧
           add_loop M i none none l = (M, some (i + l1.length), none, none)) ∨
         (¬ region_before x M ∧ ¬ region_before M x ∧
           add_loop M i none none l =
             add_loop (M.merge x) (i + l1.length + 1)
               (some (i + l1.length)) (some (i + l1.length)) l2))) := by
  intro l
  induction l with
  | nil =>
    intro M i
    exact Or.inl ⟨rfl, fun x hx => absurd hx (List.not_mem_nil x)⟩
  | cons r rest ih =>
    intro M i
    have hunf : add_loop M i none none (r :: rest) =
        if M.base > r.end_addr then add_loop M (i + 1) none none rest
        else if M.end_addr < r.base then (M, some i, none, none)
        else add_loop (M.merge r) (i + 1) (some i) (some i) rest := rfl
    by_cases h1 : M.base > r.end_addr
    · rw [if_pos h1] at hunf
      rcases ih M (i + 1) with ⟨heq, hall⟩ | ⟨l1, x, l2, hsplit, hpre, hcase⟩
      · refine Or.inl ⟨by rw [hunf, heq], ?_⟩
        intro y hy
        rcases List.mem_cons.mp hy with h | h
        · rw [h]
          exact h1
        · exact hall y h
      · refine Or.inr ⟨r :: l1, x, l2, by rw [hsplit]; rfl, ?_, ?_⟩
        · intro q hq
          rcases List.mem_cons.mp hq with h | h
          · rw [h]
            exact h1
          · exact hpre q h
        · have hlen : (i + 1) + l1.length = i + (r :: l1).length := by
            simp only [List.length_cons]
            omega
          rcases hcase with ⟨hb, heq⟩ | ⟨hb1, hb2, heq⟩
          · refine Or.inl ⟨hb, ?_⟩
            rw [hunf, heq, hlen]
          · refine Or.inr ⟨hb1, hb2, ?_⟩
            rw [hunf, heq, hlen]
    · rw [if_neg h1] at hunf
      by_cases h2 : M.end_addr < r.base
      · rw [if_pos h2] at hunf
        exact Or.inr ⟨[], r, rest, rfl, fun q hq => absurd hq (List.not_mem_nil q),
          Or.inl ⟨h2, hunf⟩⟩
      · rw [if_neg h2] at hunf
        exact Or.inr ⟨[], r, rest, rfl, fun q hq => absurd hq (List.not_mem_nil q),
          Or.inr ⟨h1, h2, hunf⟩⟩

/-- The merging phase of the `RegionArray::add` loop: on a
sorted-coalesced remainder all of whose entries reach at least to the
merged region's base, the loop absorbs a prefix and either runs off the
end or stops at the first entry strictly past the grown region. -/
theorem add_loop_phase2 :
    ∀ (l2 : List MemoryRegion) (M : MemoryRegion) (n s : Nat),
      List.Pairwise region_before l2 → (∀ r ∈ l2, 0 < r.size) →
      0 < M.size →
      (∀ r ∈ l2, M.base ≤ r.end_addr) →
      ∃ la M2,
        (∀ B, B < M.base → (∀ r ∈ la, B < r.base) → B < M2.base) ∧
        0 < M2.size ∧
        ((l2 = la ∧
           add_loop M (n + 1) (some s) (some n) l2 =
             (M2, none, some s, some (n + la.length))) ∨
         (∃ x lb, l2 = la ++ x :: lb ∧ region_before M2 x ∧
           add_loop M (n + 1) (some s) (some n) l2 =
             (M2, some (n + la.length + 1), some s, some (n + la.length)))) := by
  intro l2
  induction l2 with
  | nil =>
    intro M n s _ _ hM _
    exact ⟨[], M, fun B hB _ => hB, hM, Or.inl ⟨rfl, rfl⟩⟩
  | cons r rest ih =>
    intro M n s hpair hpos hM hnoskip
    have hunf : add_loop M (n + 1) (some s) (some n) (r :: rest) =
        if M.base > r.end_addr then add_loop M (n + 1 + 1) (some s) (some n) rest
        else if M.end_addr < r.base then (M, some (n + 1), some s, some n)
        else add_loop (M.merge r) (n + 1 + 1) (some s) (some (n + 1)) rest := rfl
    have hnsk : ¬ M.base > r.end_addr := by
      have h := hnoskip r (List.mem_cons_self r rest)
      omega
    rw [if_neg hnsk] at hunf
    by_cases h2 : M.end_addr < r.base
    · rw [if_pos h2] at hunf
      exact ⟨[], M, fun B hB _ => hB, hM, Or.inr ⟨r, rest, rfl, h2, hunf⟩⟩
    · rw [if_neg h2] at hunf
      have hrpos : 0 < r.size := hpos r (List.mem_cons_self r rest)
      have hpc := List.pairwise_cons.mp hpair
      have hM' : 0 < (M.merge r).size := merge_pos M r hM
      have hbase' : (M.merge r).base = min M.base r.base := merge_base M r
      have hnoskip' : ∀ y ∈ rest, (M.merge r).base ≤ y.end_addr := by
        intro y hy
        have h3 : r.end_addr < y.base := hpc.1 y hy
        rw [hbase']
        have h5 : r.end_addr = r.base + r.size := rfl
        have h6 : y.end_addr = y.base + y.size := rfl
        omega
      obtain ⟨la', M2, hbt, hp2, hres⟩ :=
        ih (M.merge r) (n + 1) s hpc.2
          (fun q hq => hpos q (List.mem_cons_of_mem _ hq)) hM' hnoskip'
      refine ⟨r :: la', M2, ?_, hp2, ?_⟩
      · intro B hB hall
        refine hbt B ?_ (fun q hq => hall q (List.mem_cons_of_mem _ hq))
        rw [hbase']
        have hBr := hall r (List.mem_cons_self _ _)
        omega
      · have hlen : (n + 1) + la'.length = n + (r :: la').length := by
          simp only [List.length_cons]
          omega
        rcases hres with ⟨hla, heq⟩ | ⟨x, lb, hsplit, hbx, heq⟩
        · refine Or.inl ⟨by rw [hla], ?_⟩
          rw [hunf, heq, hlen]
        · refine Or.inr ⟨x, lb, by rw [hsplit]; rfl, hbx, ?_⟩
          rw [hunf, heq, hlen]

/-- `RegionArray::add` keeps the array sorted, coalesced, and free of
empty entries. -/
theorem RegionArray_add_sc {ra : RegionArray} {region : MemoryRegion} {ra2 : RegionArray}
    (hadd : ra.add region = .ok ra2) (hsc : SC ra.regions) : SC ra2.regions := by
  rw [RegionArray.add] at hadd
  by_cases h0 : region.size = 0
  · rw [if_pos h0] at hadd
    rw [← Except.ok.inj hadd]
    exact hsc
  · rw [if_neg h0] at hadd
    have hrpos : 0 < region.size := Nat.pos_of_ne_zero h0
    rcases add_loop_phase1 ra.regions region 0 with ⟨heq, hall⟩ | ⟨l1, x, l2, hsplit, hpre, hcase⟩
    · rw [heq] at hadd
      dsimp only at hadd
      simp only [Option.getD_none] at hadd
      rw [RegionArray.insert] at hadd
      by_cases hc1 : ra.regions.length ≥ MAX_REGIONS
      · rw [if_pos hc1] at hadd
        exact absurd hadd (by simp)
      · rw [if_neg hc1] at hadd
        rw [if_neg (show ¬ ra.regions.length > ra.regions.length by omega)] at hadd
        rw [← Except.ok.inj hadd]
        show SC (listInsertIdx region ra.regions.length ra.regions)
        have hins : listInsertIdx region ra.regions.length ra.regions =
            ra.regions ++ region :: [] := by
          rw [listInsertIdx_eq region ra.regions.length ra.regions (Nat.le_refl _),
            List.take_length, List.drop_length]
        rw [hins]
        refine sc_of_parts ?_ hsc hall (fun y hy => absurd hy (List.not_mem_nil y)) hrpos
        rw [List.append_nil]
    · have hx_pos : 0 < x.size := by
        refine hsc.2 x ?_
        rw [hsplit]
        exact List.mem_append_right _ (List.mem_cons_self _ _)
      have hp := hsc.1
      rw [hsplit] at hp
      obtain ⟨hp1, hpx2, hcross⟩ := List.pairwise_append.mp hp
      have hpxc := List.pairwise_cons.mp hpx2
      rcases hcase with ⟨hbMx, heq⟩ | ⟨hnb1, hnb2, heq⟩
      · rw [heq] at hadd
        dsimp only at hadd
        simp only [Option.getD_some] at hadd
        rw [Nat.zero_add] at hadd
        rw [RegionArray.insert] at hadd
        have hlen : ra.regions.length = l1.length + (l2.length + 1) := by
          rw [hsplit]
          simp only [List.length_append, List.length_cons]
        by_cases hc1 : ra.regions.length ≥ MAX_REGIONS
        · rw [if_pos hc1] at hadd
          exact absurd hadd (by simp)
        · rw [if_neg hc1] at hadd
          rw [if_neg (show ¬ l1.length > ra.regions.length by omega)] at hadd
          rw [← Except.ok.inj hadd]
          show SC (listInsertIdx region l1.length ra.regions)
          have hins : listInsertIdx region l1.length ra.regions =
              l1 ++ region :: (x :: l2) := by
            rw [listInsertIdx_eq region l1.length ra.regions (by omega), hsplit,
              List.take_left, List.drop_left]
          rw [hins]
          refine sc_of_parts ?_ hsc hpre (before_head_all hbMx hx_pos hpxc.1) hrpos
          rw [hsplit]
      · rw [Nat.zero_add] at heq
        have hl2pos : ∀ q ∈ l2, 0 < q.size := by
          intro q hq
          refine hsc.2 q ?_
          rw [hsplit]
          exact List.mem_append_right _ (List.mem_cons_of_mem _ hq)
        have hM1pos : 0 < (region.merge x).size := merge_pos region x hrpos
        have hbase1 : (region.merge x).base = min region.base x.base := merge_base region x
        have hnoskip : ∀ y ∈ l2, (region.merge x).base ≤ y.end_addr := by
          intro y hy
          have h3 : x.end_addr < y.base := hpxc.1 y hy
          rw [hbase1]
          have h5 : x.end_addr = x.base + x.size := rfl
          have h6 : y.end_addr = y.base + y.size := rfl
          omega
        obtain ⟨la, M2, hbt, hM2pos, hres⟩ :=
          add_loop_phase2 l2 (region.merge x) l1.length l1.length hpxc.2 hl2pos hM1pos hnoskip
        have hlasub : ∀ q ∈ la, q ∈ l2 := by
          intro q hq
          rcases hres with ⟨hla, _⟩ | ⟨x2, lb, hsplit2, _, _⟩
          · rw [hla]
            exact hq
          · rw [hsplit2]
            exact List.mem_append_left _ hq
        have hl1M2 : ∀ x1 ∈ l1, region_before x1 M2 := by
          intro x1 hx1
          show x1.end_addr < M2.base
          refine hbt x1.end_addr ?_ ?_
          · rw [hbase1]
            have ha : x1.end_addr < region.base := hpre x1 hx1
            have hb : x1.end_addr < x.base := hcross x1 hx1 x (List.mem_cons_self _ _)
            omega
          · intro q hq
            exact hcross x1 hx1 q (List.mem_cons_of_mem _ (hlasub q hq))
        rcases hres with ⟨hla, heq2⟩ | ⟨x2, lb, hsplit2, hbx2, heq2⟩
        · rw [heq2] at heq
          rw [heq] at hadd
          dsimp only at hadd
          have hlen2 : ra.regions.length = l1.length + la.length + 1 := by
            rw [hsplit, hla]
            simp only [List.length_append, List.length_cons]
            omega
          have hdrop : ra.regions.drop (l1.length + la.length + 1) = [] :=
            List.drop_eq_nil_of_le (by omega)
          have htake : ra.regions.take l1.length = l1 := by
            rw [hsplit, List.take_left]
          rw [htake, hdrop] at hadd
          rw [RegionArray.insert] at hadd
          dsimp only at hadd
          by_cases hc1 : (l1 ++ ([] : List MemoryRegion)).length ≥ MAX_REGIONS
          · rw [if_pos hc1] at hadd
            exact absurd hadd (by simp)
          · rw [if_neg hc1] at hadd
            rw [if_neg (show ¬ l1.length > (l1 ++ ([] : List MemoryRegion)).length by
              simp)] at hadd
            rw [← Except.ok.inj hadd]
            show SC (listInsertIdx M2 l1.length (l1 ++ []))
            have hins : listInsertIdx M2 l1.length (l1 ++ []) = l1 ++ M2 :: [] := by
              rw [listInsertIdx_eq M2 l1.length (l1 ++ []) (by simp),
                List.take_left, List.drop_left]
            rw [hins]
            refine sc_of_parts ?_ hsc hl1M2 (fun y hy => absurd hy (List.not_mem_nil y))
              hM2pos
            rw [List.append_nil, hsplit]
            exact List.sublist_append_left _ _
        · rw [heq2] at heq
          rw [heq] at hadd
          dsimp only at hadd
          have htake : ra.regions.take l1.length = l1 := by
            rw [hsplit, List.take_left]
          have hdrop : ra.regions.drop (l1.length + la.length + 1) = x2 :: lb := by
            rw [hsplit, hsplit2]
            have hassoc : l1 ++ x :: (la ++ x2 :: lb) = (l1 ++ x :: la) ++ x2 :: lb := by
              simp
            rw [hassoc]
            have hl : (l1 ++ x :: la).length = l1.length + la.length + 1 := by
              simp only [List.length_append, List.length_cons]
              omega
            rw [← hl, List.drop_left]
          rw [htake, hdrop] at hadd
          rw [RegionArray.insert] at hadd
          dsimp only at hadd
          by_cases hc1 : (l1 ++ x2 :: lb).length ≥ MAX_REGIONS
          · rw [if_pos hc1] at hadd
            exact absurd hadd (by simp)
          · rw [if_neg hc1] at hadd
            rw [if_neg (show ¬ l1.length > (l1 ++ x2 :: lb).length by
              simp only [List.length_append, List.length_cons]
              omega)] at hadd
            rw [← Except.ok.inj hadd]
            show SC (listInsertIdx M2 l1.length (l1 ++ x2 :: lb))
            have hins : listInsertIdx M2 l1.length (l1 ++ x2 :: lb) =
                l1 ++ M2 :: (x2 :: lb) := by
              rw [listInsertIdx_eq M2 l1.length (l1 ++ x2 :: lb) (by
                  simp only [List.length_append, List.length_cons]
                  omega),
                List.take_left, List.drop_left]
            rw [hins]
            have hx2pos : 0 < x2.size := by
              refine hl2pos x2 ?_
              rw [hsplit2]
              exact List.mem_append_right _ (List.mem_cons_self _ _)
            have hx2lb : ∀ y ∈ lb, region_before x2 y := by
              have h := hpxc.2
              rw [hsplit2] at h
              exact (List.pairwise_cons.mp (List.pairwise_append.mp h).2.1).1
            refine sc_of_parts ?_ hsc hl1M2 (before_head_all hbx2 hx2pos hx2lb) hM2pos
            rw [hsplit, hsplit2]
            refine List.Sublist.append_left ?_ l1
            have hassoc : x :: (la ++ x2 :: lb) = (x :: la) ++ x2 :: lb := by simp
            rw [hassoc]
            exact List.sublist_append_right _ _

theorem sc_replace {A B mid : List MemoryRegion}
    (hpA : List.Pairwise region_before A) (hpB : List.Pairwise region_before B)
    (hcross : ∀ a ∈ A, ∀ b ∈ B, region_before a b)
    (hpmid : List.Pairwise region_before mid)
    (hAmid : ∀ a ∈ A, ∀ m ∈ mid, region_before a m)
    (hmidB : ∀ m ∈ mid, ∀ b ∈ B, region_before m b)
    (hposA : ∀ r ∈ A, 0 < r.size) (hposB : ∀ r ∈ B, 0 < r.size)
    (hposmid : ∀ r ∈ mid, 0 < r.size) :
    SC (A ++ (mid ++ B)) := by
  constructor
  · refine List.pairwise_append.mpr ⟨hpA, ?_, ?_⟩
    · exact List.pairwise_append.mpr ⟨hpmid, hpB, hmidB⟩
    · intro a ha b hb
      rcases List.mem_append.mp hb with h | h
      · exact hAmid a ha b h
      · exact hcross a ha b h
  · intro r hr
    rcases List.mem_append.mp hr with h | h
    · exact hposA r h
    · rcases List.mem_append.mp h with h | h
      · exact hposmid r h
      · exact hposB r h

/-- The loop of `RegionArray::subtract` keeps the array sorted, coalesced,
and free of empty entries: each removed entry is replaced by at most two
strictly smaller pieces carved out of its own span. -/
theorem sub_loop_sc (region : MemoryRegion) :
    ∀ (fuel : Nat) (rs : List MemoryRegion) (i : Nat) (rs2 : List MemoryRegion),
      SC rs → 0 < region.size → sub_loop region fuel rs i = .ok rs2 → SC rs2 := by
  intro fuel
  induction fuel with
  | zero =>
    intro rs i rs2 hsc _ h
    rw [← Except.ok.inj h]
    exact hsc
  | succ fuel ih =>
    intro rs i rs2 hsc hreg h
    rw [sub_loop] at h
    cases hget : rs.get? i with
    | none =>
      rw [hget] at h
      dsimp only at h
      rw [← Except.ok.inj h]
      exact hsc
    | some ex =>
      rw [hget] at h
      dsimp only at h
      by_cases hov : ex.overlaps region
      · rw [if_neg (not_not_intro hov)] at h
        have hov1 : ex.base < region.end_addr := hov.1
        have hov2 : region.base < ex.end_addr := hov.2
        have hsplit := get?_split rs i ex hget
        set A := rs.take i with hA
        set B := rs.drop (i + 1) with hB
        have hil : i < rs.length := by
          by_contra hge
          push_neg at hge
          rw [List.get?_eq_none.mpr hge] at hget
          exact Option.noConfusion hget
        have hAlen : A.length = i := by
          rw [hA, List.length_take]
          omega
        obtain ⟨hpw, hpos⟩ := hsc
        have hpw' := hpw
        rw [hsplit] at hpw'
        obtain ⟨hpA, hpexB, hcross⟩ := List.pairwise_append.mp hpw'
        obtain ⟨hexB, hpB⟩ := List.pairwise_cons.mp hpexB
        have hposA : ∀ r ∈ A, 0 < r.size := by
          intro r hr
          refine hpos r ?_
          rw [hsplit]
          exact List.mem_append_left _ hr
        have hposB : ∀ r ∈ B, 0 < r.size := by
          intro r hr
          refine hpos r ?_
          rw [hsplit]
          exact List.mem_append_right _ (List.mem_cons_of_mem _ hr)
        have hcrossAB : ∀ a ∈ A, ∀ b ∈ B, region_before a b :=
          fun a ha b hb => hcross a ha b (List.mem_cons_of_mem _ hb)
        have hAex : ∀ a ∈ A, region_before a ex :=
          fun a ha => hcross a ha ex (List.mem_cons_self _ _)
        have heid : rs.eraseIdx i = A ++ B := by
          rw [hsplit, ← hAlen]
          exact eraseIdx_append A ex B
        have hre : region.end_addr = region.base + region.size := rfl
        have hee : ex.end_addr = ex.base + ex.size := rfl
        by_cases hb1 : ex.base < region.base
        · rw [if_pos hb1] at h
          rw [heid] at h
          set P1 : MemoryRegion := { base := ex.base, size := region.base - ex.base }
            with hP1
          have hP1b : P1.base = ex.base := rfl
          have hP1e : P1.end_addr = ex.base + (region.base - ex.base) := rfl
          have hP1pos : 0 < P1.size := by
            show 0 < region.base - ex.base
            omega
          rw [RegionArray.insert] at h
          dsimp only at h
          by_cases hc1 : (A ++ B).length ≥ MAX_REGIONS
          · rw [if_pos hc1] at h
            dsimp only at h
            exact absurd h (by simp)
          · rw [if_neg hc1] at h
            by_cases hc2 : i > (A ++ B).length
            · rw [if_pos hc2] at h
              dsimp only at h
              exact absurd h (by simp)
            · rw [if_neg hc2] at h
              dsimp only at h
              have hins1 : listInsertIdx P1 i (A ++ B) = A ++ P1 :: B := by
                rw [← hAlen, listInsertIdx_eq P1 A.length (A ++ B) (by
                    simp only [List.length_append]
                    omega),
                  List.take_left, List.drop_left]
              rw [hins1] at h
              by_cases hb2 : ex.end_addr > region.end_addr
              · rw [if_pos hb2] at h
                set P2 : MemoryRegion :=
                  { base := region.end_addr, size := ex.end_addr - region.end_addr }
                  with hP2
                have hP2b : P2.base = region.end_addr := rfl
                have hP2e : P2.end_addr = region.end_addr + (ex.end_addr - region.end_addr) :=
                  rfl
                have hP2pos : 0 < P2.size := by
                  show 0 < ex.end_addr - region.end_addr
                  omega
                rw [RegionArray.insert] at h
                dsimp only at h
                by_cases hc3 : (A ++ P1 :: B).length ≥ MAX_REGIONS
                · rw [if_pos hc3] at h
                  dsimp only at h
                  exact absurd h (by simp)
                · rw [if_neg hc3] at h
                  by_cases hc4 : i + 1 > (A ++ P1 :: B).length
                  · rw [if_pos hc4] at h
                    dsimp only at h
                    exact absurd h (by simp)
                  · rw [if_neg hc4] at h
                    dsimp only at h
                    have hins2 : listInsertIdx P2 (i + 1) (A ++ P1 :: B) =
                        A ++ P1 :: P2 :: B := by
                      have hassoc : A ++ P1 :: B = (A ++ [P1]) ++ B := by simp
                      have hlen4 : (A ++ [P1]).length = i + 1 := by
                        simp only [List.length_append, List.length_cons, List.length_nil]
                        omega
                      rw [hassoc, ← hlen4, listInsertIdx_eq P2 (A ++ [P1]).length _ (by
                          simp only [List.length_append]
                          omega),
                        List.take_left, List.drop_left]
                      simp
                    rw [hins2] at h
                    refine ih _ (i + 2) rs2 ?_ hreg h
                    show SC (A ++ ([P1, P2] ++ B))
                    refine sc_replace hpA hpB hcrossAB ?_ ?_ ?_ hposA hposB ?_
                    · refine List.pairwise_cons.mpr ⟨?_, List.pairwise_singleton _ _⟩
                      intro y hy
                      obtain rfl : y = P2 := by simpa using hy
                      show P1.end_addr < P2.base
                      omega
                    · intro a ha m hm
                      have haex : a.end_addr < ex.base := hAex a ha
                      rcases List.mem_cons.mp hm with hm1 | hm1
                      · rw [hm1]
                        show a.end_addr < P1.base
                        omega
                      · obtain rfl : m = P2 := by simpa using hm1
                        show a.end_addr < P2.base
                        omega
                    · intro m hm b hb
                      have hexb : ex.end_addr < b.base := hexB b hb
                      rcases List.mem_cons.mp hm with hm1 | hm1
                      · rw [hm1]
                        show P1.end_addr < b.base
                        omega
                      · obtain rfl : m = P2 := by simpa using hm1
                        show P2.end_addr < b.base
                        omega
                    · intro r hr
                      rcases List.mem_cons.mp hr with h1 | h1
                      · rw [h1]
                        exact hP1pos
                      · obtain rfl : r = P2 := by simpa using h1
                        exact hP2pos
              · rw [if_neg hb2] at h
                refine ih _ (i + 1) rs2 ?_ hreg h
                show SC (A ++ ([P1] ++ B))
                refine sc_replace hpA hpB hcrossAB (List.pairwise_singleton _ _) ?_ ?_
                  hposA hposB ?_
                · intro a ha m hm
                  obtain rfl : m = P1 := by simpa using hm
                  have haex : a.end_addr < ex.base := hAex a ha
                  show a.end_addr < P1.base
                  omega
                · intro m hm b hb
                  obtain rfl : m = P1 := by simpa using hm
                  have hexb : ex.end_addr < b.base := hexB b hb
                  show P1.end_addr < b.base
                  omega
                · intro r hr
                  obtain rfl : r = P1 := by simpa using hr
                  exact hP1pos
        · rw [if_neg hb1] at h
          rw [heid] at h
          by_cases hb2 : ex.end_addr > region.end_addr
          · rw [if_pos hb2] at h
            set P2 : MemoryRegion :=
              { base := region.end_addr, size := ex.end_addr - region.end_addr }
              with hP2
            have hP2b : P2.base = region.end_addr := rfl
            have hP2e : P2.end_addr = region.end_addr + (ex.end_addr - region.end_addr) := rfl
            have hP2pos : 0 < P2.size := by
              show 0 < ex.end_addr - region.end_addr
              omega
            rw [RegionArray.insert] at h
            dsimp only at h
            by_cases hc1 : (A ++ B).length ≥ MAX_REGIONS
            · rw [if_pos hc1] at h
              dsimp only at h
              exact absurd h (by simp)
            · rw [if_neg hc1] at h
              by_cases hc2 : i > (A ++ B).length
              · rw [if_pos hc2] at h
                dsimp only at h
                exact absurd h (by simp)
              · rw [if_neg hc2] at h
                dsimp only at h
                have hins1 : listInsertIdx P2 i (A ++ B) = A ++ P2 :: B := by
                  rw [← hAlen, listInsertIdx_eq P2 A.length (A ++ B) (by
                      simp only [List.length_append]
                      omega),
                    List.take_left, List.drop_left]
                rw [hins1] at h
                refine ih _ (i + 1) rs2 ?_ hreg h
                show SC (A ++ ([P2] ++ B))
                refine sc_replace hpA hpB hcrossAB (List.pairwise_singleton _ _) ?_ ?_
                  hposA hposB ?_
                · intro a ha m hm
                  obtain rfl : m = P2 := by simpa using hm
                  have haex : a.end_addr < ex.base := hAex a ha
                  show a.end_addr < P2.base
                  omega
                · intro m hm b hb
                  obtain rfl : m = P2 := by simpa using hm
                  have hexb : ex.end_addr < b.base := hexB b hb
                  show P2.end_addr < b.base
                  omega
                · intro r hr
                  obtain rfl : r = P2 := by simpa using hr
                  exact hP2pos
          · rw [if_neg hb2] at h
            refine ih _ i rs2 ?_ hreg h
            show SC (A ++ ([] ++ B))
            exact sc_replace hpA hpB hcrossAB (List.Pairwise.nil)
              (fun a _ m hm => absurd hm (List.not_mem_nil m))
              (fun m hm => absurd hm (List.not_mem_nil m))
              hposA hposB (fun r hr => absurd hr (List.not_mem_nil r))
      · rw [if_pos hov] at h
        exact ih rs (i + 1) rs2 hsc hreg h

/-- `RegionArray::subtract` keeps the array sorted, coalesced, and free of
empty entries. -/
theorem RegionArray_subtract_sc {ra : RegionArray} {region : MemoryRegion}
    {ra2 : RegionArray} (hsub : ra.subtract region = .ok ra2) (hsc : SC ra.regions) :
    SC ra2.regions := by
  rw [RegionArray.subtract] at hsub
  by_cases h0 : region.size = 0
  · rw [if_pos h0] at hsub
    rw [← Except.ok.inj hsub]
    exact hsc
  · rw [if_neg h0] at hsub
    cases hloop : sub_loop region (ra.regions.length + 1) ra.regions 0 with
    | error e =>
      rw [hloop] at hsub
      dsimp only at hsub
      exact absurd hsub (by simp)
    | ok rs =>
      rw [hloop] at hsub
      dsimp only at hsub
      rw [← Except.ok.inj hsub]
      exact sub_loop_sc region _ ra.regions 0 rs hsc (Nat.pos_of_ne_zero h0) hloop

theorem except_map_ok {ε α β : Type} {f : α → β} {e : Except ε α} {b : β}
    (h : e.map f = .ok b) : ∃ a, e = .ok a ∧ f a = b := by
  cases e with
  | error e2 => simp [Except.map] at h
  | ok a => exact ⟨a, rfl, by simpa [Except.map] using h⟩

/-- Claim C8 (corrected): `available_memory` is the saturating difference
`total - reserved`, so `available + reserved = total` holds exactly when
`reserved ≤ total` — which operations such as reserving a span outside
`memory[]` violate (see `C8_counterexample`).  The structural half of the
claim does hold: every successfully completed operation (`add`,
`reserve`, `allocate_raw`, `free`) keeps both `memory[]` and `reserved[]`
sorted by base address with no two entries overlapping or adjacent. -/
theorem C8_conservation_coalesced :
    (∀ st : BlockAllocator,
      st.available_memory + st.reserved_memory = st.total_memory ↔
        st.reserved_memory ≤ st.total_memory) ∧
    (∀ (st st2 : BlockAllocator) (base size : Nat), st.add base size = .ok st2 →
      SC st.memory.regions → SC st.reserved.regions →
      SC st2.memory.regions ∧ SC st2.reserved.regions) ∧
    (∀ (st st2 : BlockAllocator) (base size : Nat), st.reserve base size = .ok st2 →
      SC st.memory.regions → SC st.reserved.regions →
      SC st2.memory.regions ∧ SC st2.reserved.regions) ∧
    (∀ (st : BlockAllocator) (off size align : Nat),
      SC st.memory.regions → SC st.reserved.regions →
      SC (st.allocate_raw off size align).2.memory.regions ∧
        SC (st.allocate_raw off size align).2.reserved.regions) ∧
    (∀ (st st2 : BlockAllocator) (off vbase size : Nat), st.free off vbase size = .ok st2 →
      SC st.memory.regions → SC st.reserved.regions →
      SC st2.memory.regions ∧ SC st2.reserved.regions) := by
  refine ⟨?_, ?_, ?_, ?_, ?_⟩
  · intro st
    have ha : st.available_memory = st.total_memory - st.reserved_memory := rfl
    rw [ha]
    omega
  · intro st st2 base size hadd hm hr
    rw [BlockAllocator.add] at hadd
    dsimp only at hadd
    by_cases h1 : base + size ≤ (base + PAGE_SIZE - 1) / PAGE_SIZE * PAGE_SIZE
    · rw [if_pos h1] at hadd
      rw [← Except.ok.inj hadd]
      exact ⟨hm, hr⟩
    · rw [if_neg h1] at hadd
      by_cases h2 : (base + size - (base + PAGE_SIZE - 1) / PAGE_SIZE * PAGE_SIZE) /
          PAGE_SIZE * PAGE_SIZE = 0
      · rw [if_pos h2] at hadd
        rw [← Except.ok.inj hadd]
        exact ⟨hm, hr⟩
      · rw [if_neg h2] at hadd
        obtain ⟨m2, hma, hfa⟩ := except_map_ok hadd
        rw [← hfa]
        exact ⟨RegionArray_add_sc hma hm, hr⟩
  · intro st st2 base size hres hm hr
    rw [BlockAllocator.reserve] at hres
    by_cases h1 : size = 0
    · rw [if_pos h1] at hres
      rw [← Except.ok.inj hres]
      exact ⟨hm, hr⟩
    · rw [if_neg h1] at hres
      dsimp only at hres
      obtain ⟨r2, hra, hfa⟩ := except_map_ok hres
      rw [← hfa]
      exact ⟨hm, RegionArray_add_sc hra hr⟩
  · intro st off size align hm hr
    rw [BlockAllocator.allocate_raw]
    by_cases h1 : size = 0
    · rw [if_pos h1]
      exact ⟨hm, hr⟩
    · rw [if_neg h1]
      by_cases h2 : align = 0 ∨ align &&& (align - 1) ≠ 0
      · rw [if_pos h2]
        exact ⟨hm, hr⟩
      · rw [if_neg h2]
        dsimp only
        cases hscan : scan_memory st.memory.regions st.reserved.regions
            (align_up size PAGE_SIZE) align with
        | none =>
          exact ⟨hm, hr⟩
        | some p =>
          dsimp only
          cases hadd : st.reserved.add { base := p, size := align_up size PAGE_SIZE } with
          | error e =>
            exact ⟨hm, hr⟩
          | ok rsv2 =>
            exact ⟨hm, RegionArray_add_sc hadd hr⟩
  · intro st st2 off vbase size hfree hm hr
    rw [BlockAllocator.free] at hfree
    by_cases h1 : size = 0
    · rw [if_pos h1] at hfree
      rw [← Except.ok.inj hfree]
      exact ⟨hm, hr⟩
    · rw [if_neg h1] at hfree
      dsimp only at hfree
      obtain ⟨r2, hsub, hfa⟩ := except_map_ok hfree
      rw [← hfa]
      exact ⟨hm, RegionArray_subtract_sc hsub hr⟩

/-- Concrete post-state used by the C8 witness. -/
def c8_state2 : BlockAllocator :=
  { memory := ⟨[{ base := 0, size := 8192 }]⟩, reserved := ⟨[]⟩ }

theorem C8_conservation_coalesced_witness :
    SC c8_state2.memory.regions ∧ SC c8_state2.reserved.regions :=
  C8_conservation_coalesced.2.1 BlockAllocator.new c8_state2 0 8192 (by decide) (by decide)
    (by decide)

end Polaris
